import Mathlib

/-
Verification of the maze algorithm engine: the grid/neighbor model
(helper_functions.py), the generation strategies RandomDFS and RandomPrims
(generation_strategies.py), the solving strategies BFSSolver, DFSSolver and
DFSRecursiveSolver (solver_strategies.py), and the start/end rejection
sampling of Maze.generate (maze.py), shallowly embedded from the source.

Modelling conventions:
* A coordinate is a pair of integers, like a Python (x, y) tuple of ints.
* A Python set of coordinates is embedded as a Finset when only membership
  matters, and as a duplicate-free list in North, East, South, West order
  when the code iterates over it (the concrete iteration order of a Python
  set is unspecified; every place where the order can influence the result
  feeds into a uniformly random selection, which the oracles below absorb).
* Randomness is an oracle: `rng : Nat -> Nat` supplies one draw per tick for
  `randint` and `random.choice` (a draw is reduced modulo the collection
  size, so every sequence of concrete choices is realised by some oracle),
  and a shuffler `sh : Nat -> List Coord -> List Coord` supplies the result
  of each `random.shuffle` call; theorems quantify over all oracles, and
  assume of a shuffler only that it permutes its input.
* Loops and recursions carry an explicit fuel parameter counting remaining
  iterations; the Python loops terminate on their own, and the theorems
  below either hold for every fuel or compute a concrete terminated run.
* The `live`/`fps`/`renderer` parameters only emit frames and never change
  the returned value; they are omitted.  So are the dead local variables
  `frontier_path` (DFSSolver, DFSRecursiveSolver) and the final
  `connecting_cells.remove` (RandomPrims), none of which can influence the
  returned corridor set or path.
* Integer division: Python `//` is floor division and Lean `/` on Int
  rounds toward zero, but every midpoint computed by the generators divides
  an even number by 2, where the two conventions agree.
-/

abbrev Coord : Type := ℤ × ℤ

/-- The four axis-aligned cells at step distance `step` from `c`, in the
North, East, South, West order of the set literal in `get_neighbors`. -/
def nbrsList (c : Coord) (step : ℤ) : List Coord :=
  [(c.1, c.2 - step), (c.1 + step, c.2), (c.1, c.2 + step), (c.1 - step, c.2)]

/-- Python truthiness of an optional int argument (`if size_x and size_y:`):
present and nonzero. -/
def truthy : Option ℤ → Bool := fun s =>
  match s with
  | none => false
  | some v => v != 0

/-- helper_functions.get_neighbors: with truthy bounds, the four neighbors
filtered to the open interior and to cells outside `exclude`; without
bounds, the four raw neighbors (note: `exclude` is NOT applied on this
branch in the source). -/
def get_neighbors (c : Coord) (step : ℤ) (size_x size_y : Option ℤ)
    (exclude : Finset Coord) : List Coord :=
  if truthy size_x && truthy size_y then
    (nbrsList c step).filter fun n =>
      decide (0 < n.1 ∧ n.1 < size_x.getD 0 - 1 ∧ 0 < n.2 ∧ n.2 < size_y.getD 0 - 1 ∧
        n ∉ exclude)
  else nbrsList c step

/-- helper_functions.remove_out_of_bounds_neighbors: keep the cells strictly
inside the border. -/
def remove_out_of_bounds_neighbors (neighbors : List Coord) (size_x size_y : ℤ) :
    List Coord :=
  neighbors.filter fun n =>
    decide (0 < n.1 ∧ n.1 < size_x - 1 ∧ 0 < n.2 ∧ n.2 < size_y - 1)

/-- random.choice from a listed collection, driven by one oracle draw `r`.
The draw is reduced modulo the length, so for a nonempty list the result is
an element, and every element is selected by some draw. -/
def pickCell (l : List Coord) (r : Nat) : Coord := l.getD (r % l.length) (0, 0)

/-- Lookup in an association list modelling a Python dict whose keys are
never overwritten (newest binding first). -/
def plookup : List (Coord × Coord) → Coord → Option Coord
  | [], _ => none
  | kv :: rest, c => if c = kv.1 then some kv.2 else plookup rest c

/-- The parent-pointer walk shared by BFSSolver.solve's inline
reconstruction and DFSSolver.reconstruct: start from `c`, repeatedly step
to the recorded parent until `start` is reached, and deliver the path in
start-to-end order (Python builds the reversed list and reverses it).
`fuel` bounds the walk; the callers pass a bound that the search invariants
prove sufficient.  A missing parent entry would be a Python KeyError; the
model stops there instead, and the invariants rule it out. -/
def backtrace (parents : List (Coord × Coord)) (start : Coord) :
    Nat → Coord → List Coord
  | 0, c => [c]
  | fuel + 1, c =>
    if c = start then [c]
    else
      match plookup parents c with
      | some p => backtrace parents start fuel p ++ [c]
      | none => [c]

/-- A shuffle oracle: tick by tick, the permutation that `random.shuffle`
applied at that call site. -/
abbrev Shuffler : Type := Nat → List Coord → List Coord

/-- The only assumption on a shuffle oracle: it returns a permutation of
its input. -/
def IsShuffler (sh : Shuffler) : Prop := ∀ t l, (sh t l).Perm l

/-- The identity shuffle oracle, used to instantiate concrete runs. -/
def idShuffler : Shuffler := fun _ l => l

theorem idShuffler_is : IsShuffler idShuffler := fun _ _ => List.Perm.refl _

/-- DFSSolver.reconstruct: walk the parent map from `end_cell` back to
`start_cell` and return the path in forward order (the Python method then
wraps it in `set(...)`; note it therefore starts at `start_cell` and ends at
`end_cell` itself, which for DFSSolver.solve is the cell popped when `end`
showed up among its neighbors, not `end`). -/
def DFSSolver.reconstruct (parents : List (Coord × Coord))
    (start_cell end_cell : Coord) (fuel : Nat) : List Coord :=
  backtrace parents start_cell fuel end_cell

/-- The main loop of DFSSolver.solve.  The stack has its top at the head
(Python appends to and pops from the tail).  One iteration: pop, compute the
bounds-filtered step-1 neighbors excluding `visited`; on no neighbors
continue; if `end` is among them reconstruct from the popped cell;
otherwise push each shuffled neighbor that is an unvisited corridor cell,
recording its parent.  Fuel exhaustion returns the same value as stack
exhaustion (the Python loop always terminates). -/
def DFSSolver.solveAux (sh : Shuffler) (size_x size_y : ℤ)
    (corridors : Finset Coord) (start endc : Coord) :
    Nat → List Coord → Finset Coord → List (Coord × Coord) → Nat → List Coord
  | 0, _, _, _, _ => []
  | _ + 1, [], _, _, _ => []
  | fuel + 1, current :: stack, visited, parents, t =>
    let nbrs := get_neighbors current 1 (some size_x) (some size_y) visited
    if nbrs = [] then
      DFSSolver.solveAux sh size_x size_y corridors start endc fuel
        stack visited parents (t + 1)
    else if endc ∈ nbrs then
      DFSSolver.reconstruct parents start current visited.card
    else
      let fresh := (sh t nbrs).filter fun n => decide (n ∉ visited ∧ n ∈ corridors)
      DFSSolver.solveAux sh size_x size_y corridors start endc fuel
        (fresh.reverse ++ stack) (visited ∪ fresh.toFinset)
        (fresh.map (fun n => (n, current)) ++ parents) (t + 1)

/-- DFSSolver.solve (the Python method returns `set(path)` on success and
`set()` when the stack empties; the model returns the underlying path list,
whose empty value is the no-path signal). -/
def DFSSolver.solve (sh : Shuffler) (size_x size_y : ℤ)
    (corridors : Finset Coord) (start endc : Coord) (fuel : Nat) : List Coord :=
  DFSSolver.solveAux sh size_x size_y corridors start endc fuel
    [start] {start} [] 0

/-- The main loop of BFSSolver.solve.  FIFO queue with its head first
(Python popleft / append).  One iteration: pop; if the popped cell is `end`
reconstruct by walking the parent map; else if it is a corridor cell,
enqueue each step-1 neighbor that is an unsearched corridor cell and record
its parent.  An exhausted queue reports no path as `none`. -/
def BFSSolver.solveAux (corridors : Finset Coord) (start endc : Coord) :
    Nat → List Coord → Finset Coord → List (Coord × Coord) → Option (List Coord)
  | 0, _, _, _ => none
  | _ + 1, [], _, _ => none
  | fuel + 1, cell :: rest, searched, parent =>
    if cell = endc then some (backtrace parent start searched.card cell)
    else if cell ∈ corridors then
      let fresh := (nbrsList cell 1).filter fun n =>
        decide (n ∉ searched ∧ n ∈ corridors)
      BFSSolver.solveAux corridors start endc fuel (rest ++ fresh)
        (searched ∪ fresh.toFinset) (fresh.map (fun n => (n, cell)) ++ parent)
    else BFSSolver.solveAux corridors start endc fuel rest searched parent

/-- BFSSolver.solve (the Python method returns `set(path)` on success and
`None` on exhaustion; the model returns the path list inside `Option`).
The initial fuel dominates the loop measure `2*|corridors \ searched| +
|queue|`, which strictly decreases each iteration, so the fuel-exhaustion
branch of `solveAux` is never taken from this entry point. -/
def BFSSolver.solve (corridors : Finset Coord) (start endc : Coord) :
    Option (List Coord) :=
  BFSSolver.solveAux corridors start endc (2 * corridors.card + 2)
    [start] {start} []

/-- The body of the `for nbr in nbrs` loop inside DFSRecursiveSolver's
`dfs`: try each shuffled neighbor in turn; recurse (through `dfsf`, the
recursion at the remaining depth) into unvisited corridor neighbors after
marking them visited; return the first non-empty solution with the
neighbor prepended (Python: `solution.union({nbr})` on a set), carrying
the mutated `visited` across failed siblings. -/
def DFSRecursiveSolver.tryNbrs
    (dfsf : Coord → Finset Coord → Nat → List Coord × Finset Coord × Nat)
    (corridors : Finset Coord) :
    List Coord → Finset Coord → Nat → List Coord × Finset Coord × Nat
  | [], visited, t => ([], visited, t)
  | n :: rest, visited, t =>
    if n ∉ visited ∧ n ∈ corridors then
      match dfsf n (insert n visited) t with
      | (sol, visited2, t2) =>
        if sol = [] then
          DFSRecursiveSolver.tryNbrs dfsf corridors rest visited2 t2
        else (n :: sol, visited2, t2)
    else DFSRecursiveSolver.tryNbrs dfsf corridors rest visited t

/-- The inner recursive function `dfs` of DFSRecursiveSolver.solve.  The
`visited` set is shared mutable state across recursive calls, so it is
threaded in and out; the returned triple is (path, visited, tick).  On
success `dfs` returns `[end]` at the bottom and each level prepends its
own cell, so the final path runs from the first cell AFTER `start` up to
`end`, and never contains `start`.  Fuel exhaustion returns the no-path
value (the Python recursion terminates because `visited` grows at every
call). -/
def DFSRecursiveSolver.dfs (sh : Shuffler) (size_x size_y : ℤ)
    (corridors : Finset Coord) (endc : Coord) :
    Nat → Coord → Finset Coord → Nat → List Coord × Finset Coord × Nat
  | 0, _, visited, t => ([], visited, t)
  | fuel + 1, v, visited, t =>
    let nbrs := remove_out_of_bounds_neighbors
      (get_neighbors v 1 none none ∅) size_x size_y
    if nbrs = [] then ([], visited, t)
    else if endc ∈ nbrs then ([endc], visited, t)
    else
      DFSRecursiveSolver.tryNbrs
        (DFSRecursiveSolver.dfs sh size_x size_y corridors endc fuel)
        corridors (sh t nbrs) visited (t + 1)

/-- DFSRecursiveSolver.solve: `visited` starts as `{start}` and the search
begins at `start`; the result of `dfs(start)` is returned as is (the Python
method returns the set `path`, empty when no path was found). -/
def DFSRecursiveSolver.solve (sh : Shuffler) (size_x size_y : ℤ)
    (corridors : Finset Coord) (start endc : Coord) (fuel : Nat) : List Coord :=
  (DFSRecursiveSolver.dfs sh size_x size_y corridors endc fuel start {start} 0).1

/-- RandomDFS.generate's random start cell: `randint(0, size_x - 1)` and
`randint(0, size_y - 1)` — anywhere in the full grid, border included.
Oracle draws 0 and 1 feed the two randint calls. -/
def RandomDFS.startCoord (rng : Nat → Nat) (size_x size_y : ℤ) : Coord :=
  ((rng 0 : ℤ) % size_x, (rng 1 : ℤ) % size_y)

/-- The main loop of RandomDFS.generate.  The stack top is the list head.
One iteration: pop; take the step-2 neighbors, drop visited ones
(`get_unvisited_neighbors` is plain set difference), and if any remain
filter them to the interior; if candidates survive, push the current cell
back, choose one candidate at random, carve the midpoint and the candidate
into the corridor set, mark the candidate visited and push it.  The start
cell itself is never carved. -/
def RandomDFS.generateAux (rng : Nat → Nat) (size_x size_y : ℤ) :
    Nat → List Coord → Finset Coord → Finset Coord → Nat → Finset Coord
  | 0, _, _, corridors, _ => corridors
  | _ + 1, [], _, corridors, _ => corridors
  | fuel + 1, current :: stack, visited, corridors, t =>
    let unvisited := (nbrsList current 2).filter fun n => decide (n ∉ visited)
    let cands := if unvisited = [] then []
      else remove_out_of_bounds_neighbors unvisited size_x size_y
    if cands = [] then
      RandomDFS.generateAux rng size_x size_y fuel stack visited corridors (t + 1)
    else
      let next := pickCell cands (rng t)
      let mid := ((current.1 + next.1) / 2, (current.2 + next.2) / 2)
      RandomDFS.generateAux rng size_x size_y fuel (next :: current :: stack)
        (insert next visited) (insert next (insert mid corridors)) (t + 1)

/-- RandomDFS.generate: run the carving loop from the random start with the
stack seeded with it and the start marked visited; corridors start empty.
Oracle ticks 2, 3, ... feed the per-iteration `random.choice` calls. -/
def RandomDFS.generate (rng : Nat → Nat) (size_x size_y : ℤ) (fuel : Nat) :
    Finset Coord :=
  RandomDFS.generateAux rng size_x size_y fuel
    [RandomDFS.startCoord rng size_x size_y]
    {RandomDFS.startCoord rng size_x size_y} ∅ 2

/-- Set-like update of the frontier list: append the cells not already
present (Python `search_q.update(...)` on a set; the iteration order of the
set only matters through the uniformly random `choice`, which the oracle
absorbs). -/
def listUnion (q adds : List Coord) : List Coord :=
  q ++ adds.filter fun n => decide (n ∉ q)

/-- RandomPrims.generate's random start cell: `randint(1, size_x - 2)` and
`randint(1, size_y - 2)` — interior only. -/
def RandomPrims.startCoord (rng1 rng2 : Nat → Nat) (size_x size_y : ℤ) : Coord :=
  (1 + (rng1 0 : ℤ) % (size_x - 2), 1 + (rng2 0 : ℤ) % (size_y - 2))

/-- The main loop of RandomPrims.generate.  One iteration: remove a random
frontier cell; collect its step-2 in-bounds neighbors already in the
corridor set; if none, discard it; otherwise pick one connecting cell at
random, carve the midpoint and the frontier cell, and add the frontier
cell's step-2 in-bounds neighbors that are not corridor cells (the exclude
set is the corridor set AFTER the carve, as in the source) to the frontier. -/
def RandomPrims.generateAux (rng1 rng2 : Nat → Nat) (size_x size_y : ℤ) :
    Nat → List Coord → Finset Coord → Nat → Finset Coord
  | 0, _, corridors, _ => corridors
  | _ + 1, [], corridors, _ => corridors
  | fuel + 1, q, corridors, t =>
    let fc := pickCell q (rng1 t)
    let q1 := q.erase fc
    let connecting := (get_neighbors fc 2 (some size_x) (some size_y) ∅).filter
      fun n => decide (n ∈ corridors)
    if connecting = [] then
      RandomPrims.generateAux rng1 rng2 size_x size_y fuel q1 corridors (t + 1)
    else
      let cc := pickCell connecting (rng2 t)
      let mid := ((fc.1 + cc.1) / 2, (fc.2 + cc.2) / 2)
      let corridors2 := insert fc (insert mid corridors)
      RandomPrims.generateAux rng1 rng2 size_x size_y fuel
        (listUnion q1 (get_neighbors fc 2 (some size_x) (some size_y) corridors2))
        corridors2 (t + 1)

/-- RandomPrims.generate: corridors start as the singleton start cell and
the frontier as its step-2 in-bounds neighbors.  Oracle `rng1` drives the
start x and the frontier choices, `rng2` the start y and the connecting
choices. -/
def RandomPrims.generate (rng1 rng2 : Nat → Nat) (size_x size_y : ℤ)
    (fuel : Nat) : Finset Coord :=
  RandomPrims.generateAux rng1 rng2 size_x size_y fuel
    (get_neighbors (RandomPrims.startCoord rng1 rng2 size_x size_y) 2
      (some size_x) (some size_y) ∅)
    {RandomPrims.startCoord rng1 rng2 size_x size_y} 1

/-- The rejection-sampling loops of Maze.generate that select start/end:
`start = choice(list(corridors))` redrawn while the predicate fails (for
start: `start.x > start_cell_buffer`; the first draw happens before the
loop, which the fuel-indexed first-success search below reproduces).  The
source has no attempt bound: the fuel only lets the model observe a still
running loop, returning `none` when the bound is hit with no success. -/
def Maze.pickCellLoop (cl : List Coord) (keep : Coord → Bool)
    (rng : Nat → Nat) : Nat → Nat → Option Coord
  | 0, _ => none
  | fuel + 1, t =>
    let c := pickCell cl (rng t)
    if keep c then some c else Maze.pickCellLoop cl keep rng fuel (t + 1)

/-- The start-selection loop of Maze.generate: keep a drawn corridor cell
when `start.x <= start_cell_buffer`. -/
def Maze.pickStart (cl : List Coord) (buffer : ℤ) (rng : Nat → Nat)
    (fuel : Nat) : Option Coord :=
  Maze.pickCellLoop cl (fun c => decide (c.1 ≤ buffer)) rng fuel 0

/-- The end-selection loop of Maze.generate: keep a drawn corridor cell
when `end.x >= size_x - end_cell_buffer`. -/
def Maze.pickEnd (cl : List Coord) (size_x buffer : ℤ) (rng : Nat → Nat)
    (fuel : Nat) : Option Coord :=
  Maze.pickCellLoop cl (fun c => decide (size_x - buffer ≤ c.1)) rng fuel 0

/-! ### Basic facts about the neighbor model -/

/-- Four-connected adjacency: `b` is one of the four step-1 neighbors of `a`. -/
def adjacent (a b : Coord) : Prop := b ∈ nbrsList a 1

instance (a b : Coord) : Decidable (adjacent a b) := by
  unfold adjacent
  infer_instance

/-- The open interior of the grid (`0 < x < size_x - 1`, likewise for y). -/
def isInterior (size_x size_y : ℤ) (c : Coord) : Prop :=
  0 < c.1 ∧ c.1 < size_x - 1 ∧ 0 < c.2 ∧ c.2 < size_y - 1

/-- The full grid `[0, size_x) x [0, size_y)`. -/
def inGrid (size_x size_y : ℤ) (c : Coord) : Prop :=
  0 ≤ c.1 ∧ c.1 < size_x ∧ 0 ≤ c.2 ∧ c.2 < size_y

instance (sx sy : ℤ) (c : Coord) : Decidable (isInterior sx sy c) := by
  unfold isInterior; infer_instance

instance (sx sy : ℤ) (c : Coord) : Decidable (inGrid sx sy c) := by
  unfold inGrid; infer_instance

theorem mem_nbrsList {n c : Coord} {st : ℤ} :
    n ∈ nbrsList c st ↔
      n = (c.1, c.2 - st) ∨ n = (c.1 + st, c.2) ∨ n = (c.1, c.2 + st) ∨
      n = (c.1 - st, c.2) := by
  simp [nbrsList]

theorem nbrsList_nodup (c : Coord) {st : ℤ} (h : st ≠ 0) :
    (nbrsList c st).Nodup := by
  simp [nbrsList, Prod.ext_iff]
  omega

theorem nbrsList_comm {a b : Coord} {st : ℤ} :
    a ∈ nbrsList b st ↔ b ∈ nbrsList a st := by
  simp [nbrsList, Prod.ext_iff]
  omega

theorem mem_nbrsList_ne {n c : Coord} {st : ℤ} (h : st ≠ 0)
    (hn : n ∈ nbrsList c st) : n ≠ c := by
  rcases mem_nbrsList.1 hn with h1 | h1 | h1 | h1 <;>
    (subst h1; simp [Prod.ext_iff]; omega)

theorem get_neighbors_no_bounds (c : Coord) (st : ℤ) (E : Finset Coord) :
    get_neighbors c st none none E = nbrsList c st := rfl

theorem get_neighbors_bounds {sx sy : ℤ} (hx : sx ≠ 0) (hy : sy ≠ 0)
    (c : Coord) (st : ℤ) (E : Finset Coord) {n : Coord} :
    n ∈ get_neighbors c st (some sx) (some sy) E ↔
      n ∈ nbrsList c st ∧ isInterior sx sy n ∧ n ∉ E := by
  simp [get_neighbors, truthy, hx, hy, isInterior, List.mem_filter, and_assoc]

theorem get_neighbors_bounds_sub {sx sy : ℤ} (c : Coord) (st : ℤ)
    (E : Finset Coord) {n : Coord}
    (h : n ∈ get_neighbors c st (some sx) (some sy) E) : n ∈ nbrsList c st := by
  by_cases hx : sx = 0
  · simp [get_neighbors, truthy, hx] at h ⊢; exact h
  · by_cases hy : sy = 0
    · simp [get_neighbors, truthy, hy] at h ⊢; exact h
    · exact ((get_neighbors_bounds hx hy c st E).1 h).1

theorem mem_remove_oob {l : List Coord} {sx sy : ℤ} {n : Coord} :
    n ∈ remove_out_of_bounds_neighbors l sx sy ↔ n ∈ l ∧ isInterior sx sy n := by
  simp [remove_out_of_bounds_neighbors, List.mem_filter, isInterior]

theorem pickCell_mem {l : List Coord} (h : l ≠ []) (r : Nat) :
    pickCell l r ∈ l := by
  have hlen : r % l.length < l.length := Nat.mod_lt _ (List.length_pos.2 h)
  rw [pickCell, List.getD_eq_getElem _ _ hlen]
  exact List.getElem_mem hlen

/-! ### Association-list lookups -/

theorem plookup_append_of_ne {ps p : List (Coord × Coord)} {x : Coord}
    (h : ∀ kv ∈ ps, x ≠ kv.1) : plookup (ps ++ p) x = plookup p x := by
  induction ps with
  | nil => rfl
  | cons kv rest ih =>
    have hx : x ≠ kv.1 := h kv (by simp)
    simp [plookup, hx]
    exact ih fun kv' h' => h kv' (by simp [h'])

theorem plookup_map_hit {l : List Coord} {cur n : Coord} (h : n ∈ l) :
    plookup (l.map fun m => (m, cur)) n = some cur := by
  induction l with
  | nil => cases h
  | cons m rest ih =>
    rcases List.mem_cons.1 h with h1 | h1
    · simp [plookup, h1]
    · by_cases hm : n = m
      · simp [plookup, hm]
      · simp [plookup, hm]
        exact ih h1

theorem plookup_map_prepend_hit {l : List Coord} {p : List (Coord × Coord)}
    {cur n : Coord} (h : n ∈ l) :
    plookup ((l.map fun m => (m, cur)) ++ p) n = some cur := by
  induction l with
  | nil => cases h
  | cons m rest ih =>
    rcases List.mem_cons.1 h with h1 | h1
    · simp [plookup, h1]
    · by_cases hm : n = m
      · simp [plookup, hm]
      · simp [plookup, hm]
        exact ih h1

/-! ### Parent chains -/

/-- The path from `start` to `c` determined by walking the parent map
backwards from `c`: each cell after the first was looked up in `parents`,
is adjacent to its parent, and differs from `start`.  This is exactly the
walk that `backtrace` performs. -/
inductive ReachesList (p : List (Coord × Coord)) (start : Coord) :
    Coord → List Coord → Prop
  | base : ReachesList p start start [start]
  | step {c pc : Coord} {l : List Coord} : ReachesList p start pc l →
      plookup p c = some pc → c ∈ nbrsList pc 1 → c ≠ start →
      ReachesList p start c (l ++ [c])

theorem ReachesList.ne_nil {p : List (Coord × Coord)} {start c : Coord}
    {l : List Coord} (h : ReachesList p start c l) : l ≠ [] := by
  cases h <;> simp

theorem ReachesList.head_start {p : List (Coord × Coord)} {start c : Coord}
    {l : List Coord} (h : ReachesList p start c l) : l.head? = some start := by
  induction h with
  | base => rfl
  | step h _ _ _ ih =>
    rw [List.head?_append_of_ne_nil _ h.ne_nil]
    exact ih

theorem ReachesList.last_self {p : List (Coord × Coord)} {start c : Coord}
    {l : List Coord} (h : ReachesList p start c l) : l.getLast? = some c := by
  cases h with
  | base => rfl
  | step h _ _ _ => simp

theorem ReachesList.chain {p : List (Coord × Coord)} {start c : Coord}
    {l : List Coord} (h : ReachesList p start c l) : List.Chain' adjacent l := by
  induction h with
  | base => simp
  | step h hp hadj hne ih =>
    rename_i c' pc l'
    refine List.Chain'.append ih (by simp) ?_
    intro x hx y hy
    rw [h.last_self] at hx
    cases hx
    cases hy
    exact hadj

theorem ReachesList.mem_self {p : List (Coord × Coord)} {start c : Coord}
    {l : List Coord} (h : ReachesList p start c l) : c ∈ l := by
  cases h with
  | base => simp
  | step h _ _ _ => simp

theorem ReachesList.unique {p : List (Coord × Coord)} {start c : Coord}
    {l1 l2 : List Coord} (h1 : ReachesList p start c l1)
    (h2 : ReachesList p start c l2) : l1 = l2 := by
  induction h1 generalizing l2 with
  | base =>
    cases h2 with
    | base => rfl
    | step h2 hp2 hadj2 hne2 => exact absurd rfl hne2
  | step h1 hp1 hadj1 hne1 ih =>
    cases h2 with
    | base => exact absurd rfl hne1
    | step h2 hp2 hadj2 hne2 =>
      rw [hp1] at hp2
      cases hp2
      rw [ih h2]

theorem ReachesList.extend {ps p : List (Coord × Coord)} {start c : Coord}
    {l : List Coord} {s : Finset Coord} (h : ReachesList p start c l)
    (hcells : ∀ x ∈ l, x ∈ s) (hfresh : ∀ kv ∈ ps, kv.1 ∉ s) :
    ReachesList (ps ++ p) start c l := by
  induction h with
  | base => exact ReachesList.base
  | step h hp hadj hne ih =>
    rename_i c' pc l'
    refine ReachesList.step (ih fun x hx => hcells x (by simp [hx])) ?_ hadj hne
    rw [plookup_append_of_ne]
    · exact hp
    · intro kv hkv heq
      exact hfresh kv hkv (heq ▸ hcells c' (by simp))

theorem backtrace_eq_of_reaches {p : List (Coord × Coord)} {start c : Coord}
    {l : List Coord} (h : ReachesList p start c l) :
    ∀ fuel, l.length ≤ fuel + 1 → backtrace p start fuel c = l := by
  induction h with
  | base =>
    intro fuel _
    cases fuel with
    | zero => rfl
    | succ n => simp [backtrace]
  | step h hp hadj hne ih =>
    rename_i c' pc l'
    intro fuel hlen
    have h2 : 2 ≤ fuel + 1 := by
      have := h.ne_nil
      have : 1 ≤ l'.length := List.length_pos.2 this
      simp at hlen
      omega
    obtain ⟨f', rfl⟩ : ∃ f', fuel = f' + 1 := ⟨fuel - 1, by omega⟩
    simp only [backtrace, if_neg hne, hp]
    rw [ih f' (by simp at hlen ⊢; omega)]

/-! ### Corridor walks and reachability -/

/-- A walk through the corridor set: nonempty, starts at `a`, ends at `b`,
consecutive cells 4-connected, every cell a corridor cell.  Cells may
repeat, so the length of a shortest walk is the graph distance plus one. -/
def IsCorridorWalk (S : Finset Coord) (a b : Coord) (w : List Coord) : Prop :=
  w.head? = some a ∧ w.getLast? = some b ∧ List.Chain' adjacent w ∧
    ∀ x ∈ w, x ∈ S

theorem IsCorridorWalk.not_nil {S : Finset Coord} {a b : Coord} {w : List Coord}
    (h : IsCorridorWalk S a b w) : w ≠ [] := by
  intro hw
  rw [hw] at h
  exact Option.noConfusion h.1

theorem IsCorridorWalk.length_pos {S : Finset Coord} {a b : Coord}
    {w : List Coord} (h : IsCorridorWalk S a b w) : 1 ≤ w.length :=
  List.length_pos.2 h.not_nil

theorem IsCorridorWalk.two_le_length {S : Finset Coord} {a b : Coord}
    {w : List Coord} (h : IsCorridorWalk S a b w) (hne : a ≠ b) :
    2 ≤ w.length := by
  rcases w with _ | ⟨x, _ | ⟨y, t⟩⟩
  · exact absurd rfl h.not_nil
  · obtain ⟨h1, h2, _, _⟩ := h
    simp at h1 h2
    exact absurd (h1.symm.trans h2) hne
  · simp

theorem IsCorridorWalk.snoc {S : Finset Coord} {a b c : Coord} {w : List Coord}
    (h : IsCorridorWalk S a b w) (hadj : c ∈ nbrsList b 1) (hc : c ∈ S) :
    IsCorridorWalk S a c (w ++ [c]) := by
  obtain ⟨h1, h2, h3, h4⟩ := h
  refine ⟨?_, by simp, ?_, ?_⟩
  · rw [List.head?_append_of_ne_nil _ (by intro hw; rw [hw] at h1; exact Option.noConfusion h1)]
    exact h1
  · refine List.Chain'.append h3 (by simp) ?_
    intro x hx y hy
    rw [h2] at hx
    cases hx
    cases hy
    exact hadj
  · intro x hx
    rcases List.mem_append.1 hx with h' | h'
    · exact h4 x h'
    · simp at h'
      exact h' ▸ hc

theorem IsCorridorWalk.of_chain {S : Finset Coord} {start c : Coord}
    {l : List Coord} {p : List (Coord × Coord)} (h : ReachesList p start c l)
    (hmem : ∀ x ∈ l, x ∈ S) : IsCorridorWalk S start c l :=
  ⟨h.head_start, h.last_self, h.chain, hmem⟩

/-- Any corridor walk from a cell inside `m` to a cell outside `m` crosses
the boundary: some walk cell `x` in `m` has a successor `y` outside `m`,
and the walk prefix up to `x` is itself a corridor walk, shorter by at
least one cell. -/
theorem getLast?_cons_ne {a : Coord} {l : List Coord} (h : l ≠ []) :
    (a :: l).getLast? = l.getLast? := by
  cases l with
  | nil => exact absurd rfl h
  | cons b t => exact List.getLast?_cons_cons

theorem mem_of_getLast?_eq {l : List Coord} {x : Coord}
    (h : l.getLast? = some x) : x ∈ l := by
  obtain ⟨hne, hx⟩ := List.mem_getLast?_eq_getLast (show x ∈ l.getLast? from h)
  exact hx ▸ List.getLast_mem hne

/-- Any corridor walk from a cell inside `m` to a cell outside `m` crosses
the boundary: some walk cell `x` in `m` has a successor `y` outside `m`,
and the walk prefix up to `x` is itself a corridor walk, shorter by at
least one cell. -/
theorem walk_crossing {C m : Finset Coord} {a u : Coord} {w : List Coord}
    (hw : IsCorridorWalk C a u w) (ha : a ∈ m) (hu : u ∉ m) :
    ∃ x y wx, x ∈ m ∧ y ∉ m ∧ y ∈ nbrsList x 1 ∧ y ∈ C ∧
      IsCorridorWalk C a x wx ∧ wx.length + 1 ≤ w.length := by
  induction w generalizing a with
  | nil => exact absurd rfl hw.not_nil
  | cons x0 tail ih =>
    obtain ⟨h1, h2, h3, h4⟩ := hw
    simp at h1
    subst h1
    rcases tail with _ | ⟨y0, t0⟩
    · simp at h2
      exact absurd (h2 ▸ ha) hu
    · have hadj : adjacent x0 y0 := (List.chain'_cons.1 h3).1
      by_cases hy : y0 ∈ m
      · have hwtail : IsCorridorWalk C y0 u (y0 :: t0) := by
          refine ⟨by simp, ?_, (List.chain'_cons.1 h3).2, ?_⟩
          · rw [← h2]
            exact (List.getLast?_cons_cons).symm
          · intro z hz
            exact h4 z (by simp [List.mem_cons.1 hz])
        obtain ⟨x, y, wx, hxm, hym, hyx, hyC, hwx, hlen⟩ := ih hwtail hy
        refine ⟨x, y, x0 :: wx, hxm, hym, hyx, hyC, ?_, ?_⟩
        · obtain ⟨g1, g2, g3, g4⟩ := hwx
          have hwnil : wx ≠ [] := by
            intro h'
            rw [h'] at g1
            exact Option.noConfusion g1
          refine ⟨by simp, ?_, ?_, ?_⟩
          · rw [getLast?_cons_ne hwnil]
            exact g2
          · rw [List.chain'_cons']
            refine ⟨?_, g3⟩
            intro z hz
            rw [g1] at hz
            cases hz
            exact hadj
          · intro z hz
            rcases List.mem_cons.1 hz with h' | h'
            · exact h' ▸ h4 x0 (by simp)
            · exact g4 z h'
        · simpa using Nat.add_le_add_right hlen 1
      · refine ⟨x0, y0, [x0], ha, hy, hadj, h4 y0 (by simp), ?_, by simp⟩
        exact ⟨rfl, rfl, by simp, by
          intro z hz
          simp at hz
          exact hz ▸ h4 x0 (by simp)⟩

/-- If the boundary of `s` is fully expanded (every corridor neighbor of a
corridor cell of `s` is in `s`), a corridor walk that starts in `s` stays
in `s`. -/
theorem walk_stays {C s : Finset Coord} {a b : Coord} {w : List Coord}
    (hclosed : ∀ c ∈ s, c ∈ C → ∀ n, n ∈ nbrsList c 1 → n ∈ C → n ∈ s)
    (hw : IsCorridorWalk C a b w) (ha : a ∈ s) : b ∈ s := by
  by_contra hb
  obtain ⟨x, y, wx, hxm, hym, hyx, hyC, hwx, _⟩ := walk_crossing hw ha hb
  have hxC : x ∈ C := hwx.2.2.2 x (mem_of_getLast?_eq hwx.2.1)
  exact hym (hclosed x hxm hxC y hyx hyC)

/-! ### Reachability inside a cell set -/

/-- Reachability within `S` by 4-connected steps: every step lands in `S`
(the source `a` itself need not be in `S`). -/
inductive Reachable (S : Finset Coord) (a : Coord) : Coord → Prop
  | refl : Reachable S a a
  | step {b c : Coord} : Reachable S a b → c ∈ nbrsList b 1 → c ∈ S →
      Reachable S a c

theorem Reachable.mono {S T : Finset Coord} {a b : Coord} (hST : S ⊆ T)
    (h : Reachable S a b) : Reachable T a b := by
  induction h with
  | refl => exact Reachable.refl
  | step _ hadj hc ih => exact Reachable.step ih hadj (hST hc)

theorem Reachable.mem_or_eq {S : Finset Coord} {a b : Coord}
    (h : Reachable S a b) : b = a ∨ b ∈ S := by
  cases h with
  | refl => exact Or.inl rfl
  | step _ _ hc => exact Or.inr hc

theorem Reachable.trans {S : Finset Coord} {a b c : Coord}
    (h1 : Reachable S a b) (h2 : Reachable S b c) : Reachable S a c := by
  induction h2 with
  | refl => exact h1
  | step _ hadj hc ih => exact Reachable.step ih hadj hc

theorem Reachable.symm {S : Finset Coord} {a b : Coord} (ha : a ∈ S)
    (h : Reachable S a b) : Reachable S b a := by
  induction h with
  | refl => exact Reachable.refl
  | step hr hadj hc ih =>
    rename_i b' c'
    refine Reachable.trans ?_ ih
    rcases hr.mem_or_eq with h' | h'
    · subst h'
      exact Reachable.step Reachable.refl (nbrsList_comm.1 hadj) ha
    · exact Reachable.step Reachable.refl (nbrsList_comm.1 hadj) h'

/-- Connectivity of a corridor set under step-1 adjacency: from any cell of
the set, every cell of the set is reachable through cells of the set. -/
def ConnectedSet (S : Finset Coord) : Prop :=
  ∀ a ∈ S, ∀ b ∈ S, Reachable S a b

theorem connectedSet_of_root {S : Finset Coord} {r : Coord} (hr : r ∈ S)
    (h : ∀ c ∈ S, Reachable S r c) : ConnectedSet S := fun a ha b hb =>
  Reachable.trans (Reachable.symm hr (h a ha)) (h b hb)

/-- A duplicate-free list of members of a finite set is no longer than the
set's cardinality. -/
theorem length_le_card {l : List Coord} {s : Finset Coord} (hnd : l.Nodup)
    (hsub : ∀ x ∈ l, x ∈ s) : l.length ≤ s.card := by
  rw [← List.toFinset_card_of_nodup hnd]
  exact Finset.card_le_card fun x hx => hsub x (List.mem_toFinset.1 hx)

/-! ### The BFS solver invariant -/

theorem forall₂_mem_left {P : Coord → Nat → Prop} {q : List Coord}
    {ds : List Nat} (h : List.Forall₂ P q ds) {x : Coord} (hx : x ∈ q) :
    ∃ d ∈ ds, P x d := by
  induction h with
  | nil => cases hx
  | cons h1 h2 ih =>
    rcases List.mem_cons.1 hx with h' | h'
    · exact ⟨_, by simp, h' ▸ h1⟩
    · obtain ⟨d, hd, hP⟩ := ih h'
      exact ⟨d, by simp [hd], hP⟩

theorem forall₂_replicate {P : Coord → Nat → Prop} {l : List Coord} {d : Nat}
    (h : ∀ x ∈ l, P x d) :
    List.Forall₂ P l (List.replicate l.length d) := by
  induction l with
  | nil => exact List.Forall₂.nil
  | cons x rest ih =>
    exact List.Forall₂.cons (h x (by simp)) (ih fun y hy => h y (by simp [hy]))

theorem forall₂_imp_mem {P Q : Coord → Nat → Prop} {q : List Coord}
    {ds : List Nat} (h : List.Forall₂ P q ds)
    (himp : ∀ x ∈ q, ∀ d, P x d → Q x d) : List.Forall₂ Q q ds := by
  induction h with
  | nil => exact List.Forall₂.nil
  | cons h1 h2 ih =>
    refine List.Forall₂.cons (himp _ (by simp) _ h1) ?_
    exact ih fun x hx d hP => himp x (by simp [hx]) d hP

theorem forall₂_append {P : Coord → Nat → Prop} {l1 l2 : List Coord}
    {ds1 ds2 : List Nat} (h1 : List.Forall₂ P l1 ds1)
    (h2 : List.Forall₂ P l2 ds2) : List.Forall₂ P (l1 ++ l2) (ds1 ++ ds2) := by
  induction h1 with
  | nil => exact h2
  | cons hx hrest ih => exact List.Forall₂.cons hx ih

/-- For a searched cell `c`: its parent chain exists, is duplicate-free,
runs through searched cells all of which are corridor cells or `start`,
and is at most as long as any corridor walk from `start` to `c` (the BFS
minimality fact). -/
def ChainInv (C : Finset Coord) (p : List (Coord × Coord)) (start : Coord)
    (s : Finset Coord) (c : Coord) : Prop :=
  ∃ l, ReachesList p start c l ∧ l.Nodup ∧ (∀ x ∈ l, x ∈ s) ∧
    (∀ x ∈ l, x = start ∨ x ∈ C) ∧
    ∀ w, IsCorridorWalk C start c w → l.length ≤ w.length

/-- The loop invariant of BFSSolver.solve: the queue is searched; searched
cells off the queue are fully expanded; `end`, once searched, is still
queued (popping it returns); every searched cell has a well-formed minimal
parent chain; and the queue carries a sorted depth list with spread at
most one whose head bounds every corridor walk leaving the searched set. -/
def BfsInv (C : Finset Coord) (start endc : Coord) (q : List Coord)
    (s : Finset Coord) (p : List (Coord × Coord)) : Prop :=
  start ∈ s ∧
  (∀ c ∈ q, c ∈ s) ∧
  (∀ c ∈ s, c ∉ q → c ∈ C → ∀ n, n ∈ nbrsList c 1 → n ∈ C → n ∈ s) ∧
  (endc ∈ s → endc ∈ q) ∧
  (∀ c ∈ s, ChainInv C p start s c) ∧
  ∃ ds : List Nat,
    List.Forall₂ (fun c d => ∃ l, ReachesList p start c l ∧
      l.length = d + 1 ∧ ∀ x ∈ l, x ∈ s) q ds ∧
    ds.Sorted (· ≤ ·) ∧
    ∀ d0 ∈ ds.head?, ∀ d ∈ ds, d ≤ d0 + 1

theorem bfsInv_init (C : Finset Coord) (start endc : Coord) :
    BfsInv C start endc [start] {start} [] := by
  refine ⟨by simp, by simp, ?_, by simp, ?_, [0], ?_, by simp, by simp⟩
  · intro c hc hcq
    simp at hc
    simp [hc] at hcq
  · intro c hc
    simp at hc
    subst hc
    exact ⟨[c], ReachesList.base, by simp, by simp, by simp,
      fun w hw => by simpa using hw.length_pos⟩
  · exact List.Forall₂.cons ⟨[start], ReachesList.base, by simp, by simp⟩
      List.Forall₂.nil

/-- The frontier bound of BFS: if every searched off-queue corridor cell is
fully expanded and the queue depths are sorted with head `e0`, then any
corridor walk from `start` that leaves the searched set has at least
`e0 + 2` cells (it must pass through a queued cell of depth at least `e0`
and take one more step). -/
theorem bfs_far_generic {C : Finset Coord} {start : Coord} {q : List Coord}
    {s : Finset Coord} {p : List (Coord × Coord)} {ds : List Nat} {e0 : Nat}
    (hstart : start ∈ s)
    (hqs : ∀ c ∈ q, c ∈ s)
    (hclose : ∀ c ∈ s, c ∉ q → c ∈ C → ∀ n, n ∈ nbrsList c 1 → n ∈ C → n ∈ s)
    (hchain : ∀ c ∈ s, ChainInv C p start s c)
    (hF2 : List.Forall₂ (fun c d => ∃ l, ReachesList p start c l ∧
      l.length = d + 1 ∧ ∀ x ∈ l, x ∈ s) q ds)
    (hsort : ds.Sorted (· ≤ ·))
    (he0 : e0 ∈ ds.head?) :
    ∀ u, u ∉ s → ∀ w, IsCorridorWalk C start u w → e0 + 2 ≤ w.length := by
  intro u hu w hw
  obtain ⟨x, y, wx, hxm, hym, hyx, hyC, hwx, hlen⟩ := walk_crossing hw hstart hu
  have hxC : x ∈ C := hwx.2.2.2 x (mem_of_getLast?_eq hwx.2.1)
  have hxq : x ∈ q := by
    by_contra hxq
    exact hym (hclose x hxm hxq hxC y hyx hyC)
  obtain ⟨dx, hdx, lx, hlx, hlxlen, _⟩ := forall₂_mem_left hF2 hxq
  obtain ⟨lx2, hlx2, _, _, _, hmin2⟩ := hchain x (hqs x hxq)
  have heq : lx2 = lx := hlx2.unique hlx
  have hminx : dx + 1 ≤ wx.length := by
    have h1 := hmin2 wx hwx
    rw [heq, hlxlen] at h1
    exact h1
  have he0dx : e0 ≤ dx := by
    cases ds with
    | nil => simp at he0
    | cons a t =>
      simp at he0
      subst he0
      rcases List.mem_cons.1 hdx with h1 | h1
      · omega
      · exact List.rel_of_sorted_cons hsort dx h1
  omega

/-- Preservation of the BFS invariant across one expanding iteration: the
popped head `cell` is a corridor cell other than `end`; its unsearched
corridor neighbors are appended to the queue, added to the searched set,
and recorded in the parent map. -/
theorem bfsInv_step {C : Finset Coord} {start endc cell : Coord}
    {rest : List Coord} {s : Finset Coord} {p : List (Coord × Coord)}
    (hinv : BfsInv C start endc (cell :: rest) s p)
    (hne : cell ≠ endc) (hcC : cell ∈ C) :
    BfsInv C start endc
      (rest ++ (nbrsList cell 1).filter (fun n => decide (n ∉ s ∧ n ∈ C)))
      (s ∪ ((nbrsList cell 1).filter (fun n => decide (n ∉ s ∧ n ∈ C))).toFinset)
      (((nbrsList cell 1).filter (fun n => decide (n ∉ s ∧ n ∈ C))).map
        (fun n => (n, cell)) ++ p) := by
  obtain ⟨hstart, hqs, hclose, hendq, hchain, ds, hF2, hsort, hhead⟩ := hinv
  set fresh := (nbrsList cell 1).filter (fun n => decide (n ∉ s ∧ n ∈ C))
    with hfr
  have hmemf : ∀ {n : Coord}, n ∈ fresh ↔ n ∈ nbrsList cell 1 ∧ n ∉ s ∧ n ∈ C := by
    intro n
    simp [hfr, List.mem_filter]
  have hkeys : ∀ kv ∈ fresh.map (fun n => (n, cell)), kv.1 ∉ s := by
    intro kv hkv
    obtain ⟨n, hn, rfl⟩ := List.mem_map.1 hkv
    exact (hmemf.1 hn).2.1
  cases hF2 with
  | cons hd htl =>
  rename_i d0 ds'
  obtain ⟨l0, hl0, hl0len, _⟩ := hd
  have hcs : cell ∈ s := hqs cell (by simp)
  obtain ⟨lc, hlc, hlcnd, hlcs, hlcC, hlcmin⟩ := hchain cell hcs
  have hlceq : lc = l0 := hlc.unique hl0
  have hlclen : lc.length = d0 + 1 := by rw [hlceq, hl0len]
  have hext : ∀ {c : Coord} {l : List Coord}, ReachesList p start c l →
      (∀ x ∈ l, x ∈ s) →
      ReachesList (fresh.map (fun n => (n, cell)) ++ p) start c l :=
    fun h hcl => h.extend hcl hkeys
  -- the old-state frontier bound, used for the minimality of new chains
  have hfar : ∀ u, u ∉ s → ∀ w, IsCorridorWalk C start u w →
      d0 + 2 ≤ w.length :=
    bfs_far_generic hstart hqs hclose hchain
      (List.Forall₂.cons ⟨l0, hl0, hl0len, hlceq ▸ hlcs⟩ htl) hsort (by simp)
  -- the new chain of a freshly searched neighbor
  have hnchain : ∀ n ∈ fresh,
      ReachesList (fresh.map (fun n => (n, cell)) ++ p) start n (lc ++ [n]) := by
    intro n hn
    obtain ⟨hadj, hns, hnC⟩ := hmemf.1 hn
    exact ReachesList.step (hext hlc hlcs) (plookup_map_prepend_hit hn) hadj
      (fun h => hns (h ▸ hstart))
  have hqs2 : ∀ c ∈ rest ++ fresh, c ∈ s ∪ fresh.toFinset := by
    intro c hc
    rcases List.mem_append.1 hc with h1 | h1
    · exact Finset.mem_union_left _ (hqs c (by simp [h1]))
    · exact Finset.mem_union_right _ (List.mem_toFinset.2 h1)
  have hclose2 : ∀ c ∈ s ∪ fresh.toFinset, c ∉ rest ++ fresh → c ∈ C →
      ∀ n, n ∈ nbrsList c 1 → n ∈ C → n ∈ s ∪ fresh.toFinset := by
    intro c hc hcq hcC' n hn hnC
    rcases Finset.mem_union.1 hc with h1 | h1
    · by_cases hceq : c = cell
      · subst hceq
        by_cases hns : n ∈ s
        · exact Finset.mem_union_left _ hns
        · exact Finset.mem_union_right _
            (List.mem_toFinset.2 (hmemf.2 ⟨hn, hns, hnC⟩))
      · have hcq' : c ∉ cell :: rest := by
          intro h'
          rcases List.mem_cons.1 h' with h'' | h''
          · exact hceq h''
          · exact hcq (List.mem_append.2 (Or.inl h''))
        exact Finset.mem_union_left _ (hclose c h1 hcq' hcC' n hn hnC)
    · exact absurd (List.mem_append.2 (Or.inr (List.mem_toFinset.1 h1))) hcq
  have hchain2 : ∀ c ∈ s ∪ fresh.toFinset,
      ChainInv C (fresh.map (fun n => (n, cell)) ++ p) start
        (s ∪ fresh.toFinset) c := by
    intro c hc
    rcases Finset.mem_union.1 hc with h1 | h1
    · obtain ⟨l, g1, g2, g3, g4, g5⟩ := hchain c h1
      exact ⟨l, hext g1 g3, g2, fun x hx => Finset.mem_union_left _ (g3 x hx),
        g4, g5⟩
    · have h1' : c ∈ fresh := List.mem_toFinset.1 h1
      obtain ⟨hadj, hns, hnC⟩ := hmemf.1 h1'
      refine ⟨lc ++ [c], hnchain c h1', ?_, ?_, ?_, ?_⟩
      · rw [List.nodup_append]
        exact ⟨hlcnd, by simp, by
          intro x hx
          simp only [List.mem_singleton]
          intro h'
          exact hns (h' ▸ hlcs x hx)⟩
      · intro x hx
        rcases List.mem_append.1 hx with h' | h'
        · exact Finset.mem_union_left _ (hlcs x h')
        · simp at h'
          exact h' ▸ Finset.mem_union_right _ h1
      · intro x hx
        rcases List.mem_append.1 hx with h' | h'
        · exact hlcC x h'
        · simp at h'
          exact h' ▸ Or.inr hnC
      · intro w hw
        have := hfar c hns w hw
        simp [hlclen]
        omega
    -- the new depth list
  refine ⟨Finset.mem_union_left _ hstart, hqs2, hclose2, ?_, hchain2,
    ds' ++ List.replicate fresh.length (d0 + 1), ?_, ?_, ?_⟩
  · intro hendc
    rcases Finset.mem_union.1 hendc with h1 | h1
    · have := hendq h1
      rcases List.mem_cons.1 this with h' | h'
      · exact absurd h'.symm hne
      · exact List.mem_append.2 (Or.inl h')
    · exact List.mem_append.2 (Or.inr (List.mem_toFinset.1 h1))
  · refine forall₂_append ?_ ?_
    · refine forall₂_imp_mem htl ?_
      intro x hx d hP
      obtain ⟨l, g1, g2, g3⟩ := hP
      exact ⟨l, hext g1 g3, g2, fun y hy => Finset.mem_union_left _ (g3 y hy)⟩
    · refine forall₂_replicate ?_
      intro n hn
      refine ⟨lc ++ [n], hnchain n hn, by simp [hlclen], ?_⟩
      intro x hx
      rcases List.mem_append.1 hx with h' | h'
      · exact Finset.mem_union_left _ (hlcs x h')
      · simp at h'
        exact h' ▸ Finset.mem_union_right _ (List.mem_toFinset.2 hn)
  · rw [List.Sorted, List.pairwise_append]
    refine ⟨(List.sorted_cons.1 hsort).2, ?_, ?_⟩
    · exact List.pairwise_replicate.2 (Or.inr le_rfl)
    · intro a ha b hb
      have hb' : b = d0 + 1 := List.eq_of_mem_replicate hb
      have ha' : a ≤ d0 + 1 := hhead d0 (by simp) a (by simp [ha])
      omega
  · intro e0 he0 d hdm
    have hd01 : d ≤ d0 + 1 := by
      rcases List.mem_append.1 hdm with h1 | h1
      · exact hhead d0 (by simp) d (by simp [h1])
      · exact le_of_eq (List.eq_of_mem_replicate h1)
    have he0ge : d0 ≤ e0 := by
      cases ds' with
      | nil =>
        cases hk : fresh.length with
        | zero => rw [hk] at he0; simp at he0
        | succ k =>
          rw [hk, List.replicate_succ] at he0
          simp at he0
          omega
      | cons a t =>
        simp at he0
        have : a ∈ a :: t := by simp
        have := hhead d0 (by simp) a (by simp)
        have h2 := List.rel_of_sorted_cons hsort a (by simp)
        omega
    omega

/-- Preservation of the BFS invariant when the popped head is not a
corridor cell: nothing is expanded. -/
theorem bfsInv_skip {C : Finset Coord} {start endc cell : Coord}
    {rest : List Coord} {s : Finset Coord} {p : List (Coord × Coord)}
    (hinv : BfsInv C start endc (cell :: rest) s p)
    (hne : cell ≠ endc) (hcC : cell ∉ C) :
    BfsInv C start endc rest s p := by
  obtain ⟨hstart, hqs, hclose, hendq, hchain, ds, hF2, hsort, hhead⟩ := hinv
  cases hF2 with
  | cons hd htl =>
  rename_i d0 ds'
  refine ⟨hstart, fun c hc => hqs c (by simp [hc]), ?_, ?_, hchain, ds', htl,
    (List.sorted_cons.1 hsort).2, ?_⟩
  · intro c hc hcq hcC' n hn hnC
    by_cases hceq : c = cell
    · exact absurd (hceq ▸ hcC') hcC
    · refine hclose c hc ?_ hcC' n hn hnC
      intro h'
      rcases List.mem_cons.1 h' with h'' | h''
      · exact hceq h''
      · exact hcq h''
  · intro hendc
    rcases List.mem_cons.1 (hendq hendc) with h' | h'
    · exact absurd h'.symm hne
    · exact h'
  · intro e0 he0 d hdm
    have h1 : d ≤ d0 + 1 := hhead d0 (by simp) d (by simp [hdm])
    have h2 : d0 ≤ e0 := by
      cases ds' with
      | nil => simp at he0
      | cons a t =>
        simp at he0
        have := List.rel_of_sorted_cons hsort a (by simp)
        omega
    omega

/-- Soundness and minimality of a successful BFS run: the returned path is
a duplicate-free 4-connected path from `start` to `end` through corridor
cells (apart from `start` itself), no longer than any corridor walk
between them. -/
theorem bfs_solveAux_some {C : Finset Coord} {start endc : Coord} :
    ∀ (fuel : Nat) (q : List Coord) (s : Finset Coord)
      (p : List (Coord × Coord)) (bl : List Coord),
    BfsInv C start endc q s p →
    BFSSolver.solveAux C start endc fuel q s p = some bl →
    bl.head? = some start ∧ bl.getLast? = some endc ∧ List.Chain' adjacent bl ∧
      bl.Nodup ∧ (∀ x ∈ bl, x = start ∨ x ∈ C) ∧
      ∀ w, IsCorridorWalk C start endc w → bl.length ≤ w.length := by
  intro fuel
  induction fuel with
  | zero => intro q s p bl _ heq; exact Option.noConfusion heq
  | succ fuel ih =>
    intro q s p bl hinv heq
    cases q with
    | nil => exact Option.noConfusion heq
    | cons cell rest =>
      simp only [BFSSolver.solveAux] at heq
      by_cases hc : cell = endc
      · rw [if_pos hc] at heq
        subst hc
        have hcs : cell ∈ s := hinv.2.1 cell (by simp)
        obtain ⟨l, h1, h2, h3, h4, h5⟩ := hinv.2.2.2.2.1 cell hcs
        have hlen : l.length ≤ s.card := length_le_card h2 h3
        have hbl : bl = l := by
          have := backtrace_eq_of_reaches h1 s.card (by omega)
          rw [this] at heq
          exact (Option.some_injective _ heq).symm
        subst hbl
        exact ⟨h1.head_start, h1.last_self, h1.chain, h2, h4, h5⟩
      · rw [if_neg hc] at heq
        by_cases hcC : cell ∈ C
        · rw [if_pos hcC] at heq
          exact ih _ _ _ _ (bfsInv_step hinv hc hcC) heq
        · rw [if_neg hcC] at heq
          exact ih _ _ _ _ (bfsInv_skip hinv hc hcC) heq

/-- Completeness of BFS: if the loop exhausts its queue (with fuel
dominating the loop measure) and reports no path, then no corridor walk
from `start` to `end` exists. -/
theorem bfs_solveAux_none {C : Finset Coord} {start endc : Coord} :
    ∀ (fuel : Nat) (q : List Coord) (s : Finset Coord)
      (p : List (Coord × Coord)),
    BfsInv C start endc q s p →
    2 * (C \ s).card + q.length ≤ fuel →
    BFSSolver.solveAux C start endc fuel q s p = none →
    ∀ w, ¬ IsCorridorWalk C start endc w := by
  have hempty : ∀ (s : Finset Coord) (p : List (Coord × Coord)),
      BfsInv C start endc [] s p → ∀ w, ¬ IsCorridorWalk C start endc w := by
    intro s p hinv w hw
    obtain ⟨hstart, _, hclose, hendq, _, _⟩ := hinv
    have hcl : ∀ c ∈ s, c ∈ C → ∀ n, n ∈ nbrsList c 1 → n ∈ C → n ∈ s :=
      fun c hc => hclose c hc (by simp)
    have : endc ∈ s := walk_stays hcl hw hstart
    simpa using hendq this
  intro fuel
  induction fuel with
  | zero =>
    intro q s p hinv hfuel _
    have hq : q = [] := by
      cases q with
      | nil => rfl
      | cons a t => simp at hfuel
    exact hempty s p (hq ▸ hinv)
  | succ fuel ih =>
    intro q s p hinv hfuel heq
    cases q with
    | nil => exact hempty s p hinv
    | cons cell rest =>
      simp only [BFSSolver.solveAux] at heq
      by_cases hc : cell = endc
      · rw [if_pos hc] at heq
        exact Option.noConfusion heq
      · rw [if_neg hc] at heq
        by_cases hcC : cell ∈ C
        · rw [if_pos hcC] at heq
          refine ih _ _ _ (bfsInv_step hinv hc hcC) ?_ heq
          set fresh := (nbrsList cell 1).filter
            (fun n => decide (n ∉ s ∧ n ∈ C)) with hfr
          have hfnd : fresh.Nodup :=
            List.Nodup.filter _ (nbrsList_nodup cell one_ne_zero)
          have hsub : fresh.toFinset ⊆ C \ s := by
            intro n hn
            have := List.mem_toFinset.1 hn
            simp [hfr, List.mem_filter] at this
            simp [Finset.mem_sdiff]
            exact ⟨this.2.2, this.2.1⟩
          have hsd : C \ (s ∪ fresh.toFinset) = (C \ s) \ fresh.toFinset := by
            ext x
            simp [Finset.mem_sdiff]
            tauto
          have hcard : (C \ (s ∪ fresh.toFinset)).card =
              (C \ s).card - fresh.toFinset.card := by
            rw [hsd]
            exact Finset.card_sdiff hsub
          have hle : fresh.toFinset.card ≤ (C \ s).card :=
            Finset.card_le_card hsub
          have hlf : fresh.toFinset.card = fresh.length :=
            List.toFinset_card_of_nodup hfnd
          simp only [List.length_append] at hfuel ⊢
          simp only [List.length_cons] at hfuel
          omega
        · rw [if_neg hcC] at heq
          refine ih _ _ _ (bfsInv_skip hinv hc hcC) ?_ heq
          simp only [List.length_cons] at hfuel
          omega

theorem bfs_solve_some {C : Finset Coord} {start endc : Coord}
    {bl : List Coord} (h : BFSSolver.solve C start endc = some bl) :
    bl.head? = some start ∧ bl.getLast? = some endc ∧ List.Chain' adjacent bl ∧
      bl.Nodup ∧ (∀ x ∈ bl, x = start ∨ x ∈ C) ∧
      ∀ w, IsCorridorWalk C start endc w → bl.length ≤ w.length :=
  bfs_solveAux_some _ _ _ _ _ (bfsInv_init C start endc) h

theorem bfs_solve_none {C : Finset Coord} {start endc : Coord}
    (h : BFSSolver.solve C start endc = none) :
    ∀ w, ¬ IsCorridorWalk C start endc w := by
  refine bfs_solveAux_none _ _ _ _ (bfsInv_init C start endc) ?_ h
  have : (C \ {start}).card ≤ C.card := Finset.card_le_card (Finset.sdiff_subset)
  simp only [List.length_cons, List.length_nil]
  omega

/-! ### The iterative DFS solver invariant -/

/-- Invariant of DFSSolver.solve: stack cells are visited, every visited
cell has a well-formed parent chain through visited corridor cells, and
`end` can be visited only if it equals `start` (it is never pushed, because
detecting it among the neighbors returns first). -/
def DfsInv (C : Finset Coord) (start endc : Coord) (stack : List Coord)
    (visited : Finset Coord) (parents : List (Coord × Coord)) : Prop :=
  start ∈ visited ∧
  (∀ c ∈ stack, c ∈ visited) ∧
  (∀ c ∈ visited, ∃ l, ReachesList parents start c l ∧ l.Nodup ∧
    (∀ x ∈ l, x ∈ visited) ∧ (∀ x ∈ l, x = start ∨ x ∈ C)) ∧
  (endc ∈ visited → endc = start)

theorem dfsInv_init (C : Finset Coord) (start endc : Coord) :
    DfsInv C start endc [start] {start} [] := by
  refine ⟨by simp, by simp, ?_, by simp⟩
  intro c hc
  simp at hc
  subst hc
  exact ⟨[c], ReachesList.base, by simp, by simp, by simp⟩

theorem dfsInv_push {sh : Shuffler} (hsh : IsShuffler sh) {sx sy : ℤ}
    {C : Finset Coord} {start endc current : Coord} {stack : List Coord}
    {visited : Finset Coord} {parents : List (Coord × Coord)} {t : Nat}
    (hinv : DfsInv C start endc (current :: stack) visited parents)
    (hnend : endc ∉ get_neighbors current 1 (some sx) (some sy) visited) :
    DfsInv C start endc
      (((sh t (get_neighbors current 1 (some sx) (some sy) visited)).filter
          (fun n => decide (n ∉ visited ∧ n ∈ C))).reverse ++ stack)
      (visited ∪ ((sh t (get_neighbors current 1 (some sx) (some sy)
          visited)).filter (fun n => decide (n ∉ visited ∧ n ∈ C))).toFinset)
      (((sh t (get_neighbors current 1 (some sx) (some sy) visited)).filter
          (fun n => decide (n ∉ visited ∧ n ∈ C))).map (fun n => (n, current))
        ++ parents) := by
  obtain ⟨hstart, hsv, hchain, hendv⟩ := hinv
  set nbrs := get_neighbors current 1 (some sx) (some sy) visited with hnb
  set fresh := (sh t nbrs).filter (fun n => decide (n ∉ visited ∧ n ∈ C))
    with hfr
  have hmemf : ∀ {n : Coord}, n ∈ fresh → n ∈ nbrs ∧ n ∉ visited ∧ n ∈ C := by
    intro n hn
    simp [hfr, List.mem_filter] at hn
    exact ⟨(hsh t nbrs).mem_iff.1 hn.1, hn.2.1, hn.2.2⟩
  have hkeys : ∀ kv ∈ fresh.map (fun n => (n, current)), kv.1 ∉ visited := by
    intro kv hkv
    obtain ⟨n, hn, rfl⟩ := List.mem_map.1 hkv
    exact (hmemf hn).2.1
  have hcv : current ∈ visited := hsv current (by simp)
  obtain ⟨lc, hlc1, hlc2, hlc3, hlc4⟩ := hchain current hcv
  refine ⟨Finset.mem_union_left _ hstart, ?_, ?_, ?_⟩
  · intro c hc
    rcases List.mem_append.1 hc with h1 | h1
    · exact Finset.mem_union_right _
        (List.mem_toFinset.2 (List.mem_reverse.1 h1))
    · exact Finset.mem_union_left _ (hsv c (by simp [h1]))
  · intro c hc
    rcases Finset.mem_union.1 hc with h1 | h1
    · obtain ⟨l, g1, g2, g3, g4⟩ := hchain c h1
      exact ⟨l, g1.extend g3 hkeys, g2,
        fun x hx => Finset.mem_union_left _ (g3 x hx), g4⟩
    · have h1' : c ∈ fresh := List.mem_toFinset.1 h1
      obtain ⟨hcn, hcv', hcC⟩ := hmemf h1'
      have hadj : c ∈ nbrsList current 1 := get_neighbors_bounds_sub _ _ _ hcn
      refine ⟨lc ++ [c],
        ReachesList.step (hlc1.extend hlc3 hkeys)
          (plookup_map_prepend_hit h1') hadj (fun h => hcv' (h ▸ hstart)),
        ?_, ?_, ?_⟩
      · rw [List.nodup_append]
        refine ⟨hlc2, by simp, ?_⟩
        intro x hx
        simp only [List.mem_singleton]
        intro h'
        exact hcv' (h' ▸ hlc3 x hx)
      · intro x hx
        rcases List.mem_append.1 hx with h' | h'
        · exact Finset.mem_union_left _ (hlc3 x h')
        · simp at h'
          exact h' ▸ Finset.mem_union_right _ h1
      · intro x hx
        rcases List.mem_append.1 hx with h' | h'
        · exact hlc4 x h'
        · simp at h'
          exact h' ▸ Or.inr hcC
  · intro hendc
    rcases Finset.mem_union.1 hendc with h1 | h1
    · exact hendv h1
    · exact absurd (hmemf (List.mem_toFinset.1 h1)).1 hnend

/-- Soundness of a successful DFSSolver run: the non-empty returned path is
a duplicate-free 4-connected path that STARTS at `start` but ends at the
cell popped when `end` appeared among its neighbors — `end` itself is not
on the path.  Every path cell is a corridor cell or `start`. -/
theorem dfs_solveAux_spec {sh : Shuffler} (hsh : IsShuffler sh) {sx sy : ℤ}
    {C : Finset Coord} {start endc : Coord} :
    ∀ (fuel : Nat) (stack : List Coord) (visited : Finset Coord)
      (parents : List (Coord × Coord)) (t : Nat) (dl : List Coord),
    DfsInv C start endc stack visited parents →
    DFSSolver.solveAux sh sx sy C start endc fuel stack visited parents t = dl →
    dl ≠ [] →
    dl.head? = some start ∧ List.Chain' adjacent dl ∧ dl.Nodup ∧
      (∀ x ∈ dl, x = start ∨ x ∈ C) ∧
      ∃ cur, dl.getLast? = some cur ∧ endc ∈ nbrsList cur 1 ∧
        (sx ≠ 0 → sy ≠ 0 → endc ∉ dl) := by
  intro fuel
  induction fuel with
  | zero =>
    intro stack visited parents t dl _ heq hne
    exact absurd heq.symm hne
  | succ fuel ih =>
    intro stack visited parents t dl hinv heq hne
    cases stack with
    | nil => exact absurd heq.symm hne
    | cons current stack =>
      simp only [DFSSolver.solveAux] at heq
      by_cases h0 : get_neighbors current 1 (some sx) (some sy) visited = []
      · rw [if_pos h0] at heq
        exact ih _ _ _ _ _ ⟨hinv.1, fun c hc => hinv.2.1 c (by simp [hc]),
          hinv.2.2.1, hinv.2.2.2⟩ heq hne
      · rw [if_neg h0] at heq
        by_cases hend : endc ∈ get_neighbors current 1 (some sx) (some sy) visited
        · rw [if_pos hend] at heq
          have hcv : current ∈ visited := hinv.2.1 current (by simp)
          obtain ⟨lc, hlc1, hlc2, hlc3, hlc4⟩ := hinv.2.2.1 current hcv
          have hlen : lc.length ≤ visited.card := length_le_card hlc2 hlc3
          have hdl : dl = lc := by
            rw [← heq, DFSSolver.reconstruct,
              backtrace_eq_of_reaches hlc1 visited.card (by omega)]
          subst hdl
          refine ⟨hlc1.head_start, hlc1.chain, hlc2, hlc4, current,
            hlc1.last_self, get_neighbors_bounds_sub _ _ _ hend, ?_⟩
          intro hx hy hmem
          have := (get_neighbors_bounds hx hy current 1 visited).1 hend
          exact this.2.2 (hlc3 endc hmem)
        · rw [if_neg hend] at heq
          exact ih _ _ _ _ _ (dfsInv_push hsh hinv hend) heq hne

/-- Soundness of DFSSolver.solve at its entry point. -/
theorem dfs_solve_spec {sh : Shuffler} (hsh : IsShuffler sh) {sx sy : ℤ}
    {C : Finset Coord} {start endc : Coord} {fuel : Nat}
    (hne : DFSSolver.solve sh sx sy C start endc fuel ≠ []) :
    (DFSSolver.solve sh sx sy C start endc fuel).head? = some start ∧
      List.Chain' adjacent (DFSSolver.solve sh sx sy C start endc fuel) ∧
      (DFSSolver.solve sh sx sy C start endc fuel).Nodup ∧
      (∀ x ∈ DFSSolver.solve sh sx sy C start endc fuel, x = start ∨ x ∈ C) ∧
      ∃ cur, (DFSSolver.solve sh sx sy C start endc fuel).getLast? = some cur ∧
        endc ∈ nbrsList cur 1 ∧
        (sx ≠ 0 → sy ≠ 0 →
          endc ∉ DFSSolver.solve sh sx sy C start endc fuel) :=
  dfs_solveAux_spec hsh fuel _ _ _ _ _ (dfsInv_init C start endc) rfl hne

/-! ### The recursive DFS solver -/

/-- Shape of a successful recursive-DFS result relative to the cell `v` it
was launched from and the `visited` set at launch time: a duplicate-free
4-connected continuation of `v` ending at `end`, all of whose cells except
`end` are corridor cells that were unvisited at launch.  Note the path does
not contain `v` itself. -/
def RecPath (C : Finset Coord) (endc v : Coord) (visited : Finset Coord)
    (sol : List Coord) : Prop :=
  List.Chain' adjacent (v :: sol) ∧ sol.getLast? = some endc ∧ sol.Nodup ∧
    ∀ x ∈ sol, x = endc ∨ (x ∈ C ∧ x ∉ visited)

theorem recPath_weaken {C : Finset Coord} {endc v : Coord}
    {visited visited' : Finset Coord} {sol : List Coord}
    (h : RecPath C endc v visited' sol) (hsub : visited ⊆ visited') :
    RecPath C endc v visited sol := by
  obtain ⟨h1, h2, h3, h4⟩ := h
  refine ⟨h1, h2, h3, ?_⟩
  intro x hx
  rcases h4 x hx with h' | h'
  · exact Or.inl h'
  · exact Or.inr ⟨h'.1, fun hc => h'.2 (hsub hc)⟩

/-- The statement proved about `dfs` at a given fuel, used as the induction
hypothesis when reasoning about the neighbor loop. -/
def DfsRecSpec (sh : Shuffler) (sx sy : ℤ) (C : Finset Coord) (endc : Coord)
    (fuel : Nat) : Prop :=
  ∀ (v : Coord) (visited : Finset Coord) (t : Nat) (sol : List Coord)
    (vis2 : Finset Coord) (t2 : Nat),
    DFSRecursiveSolver.dfs sh sx sy C endc fuel v visited t = (sol, vis2, t2) →
    visited ⊆ vis2 ∧ (sol ≠ [] → RecPath C endc v visited sol)

theorem dfsRec_tryNbrs_spec
    {dfsf : Coord → Finset Coord → Nat → List Coord × Finset Coord × Nat}
    {C : Finset Coord} {endc : Coord}
    (hdfsf : ∀ (v : Coord) (visited : Finset Coord) (t : Nat)
      (sol : List Coord) (vis2 : Finset Coord) (t2 : Nat),
      dfsf v visited t = (sol, vis2, t2) →
      visited ⊆ vis2 ∧ (sol ≠ [] → RecPath C endc v visited sol)) :
    ∀ (l : List Coord) (v : Coord) (visited : Finset Coord) (t : Nat)
      (sol : List Coord) (vis2 : Finset Coord) (t2 : Nat),
    (∀ n ∈ l, n ∈ nbrsList v 1) → endc ∉ l →
    DFSRecursiveSolver.tryNbrs dfsf C l visited t = (sol, vis2, t2) →
    visited ⊆ vis2 ∧ (sol ≠ [] → RecPath C endc v visited sol) := by
  intro l
  induction l with
  | nil =>
    intro v visited t sol vis2 t2 _ _ heq
    simp [DFSRecursiveSolver.tryNbrs] at heq
    obtain ⟨h1, h2, _⟩ := heq
    subst h1
    subst h2
    exact ⟨le_refl _, fun h => absurd rfl h⟩
  | cons n rest ih =>
    intro v visited t sol vis2 t2 hnb hend heq
    simp only [DFSRecursiveSolver.tryNbrs] at heq
    by_cases hcond : n ∉ visited ∧ n ∈ C
    · rw [if_pos hcond] at heq
      rcases hdd : dfsf n (insert n visited) t with ⟨sol1, vis1, t1⟩
      rw [hdd] at heq
      obtain ⟨hsub1, hrp1⟩ := hdfsf n (insert n visited) t sol1 vis1 t1 hdd
      have hsubv : visited ⊆ vis1 :=
        le_trans (Finset.subset_insert n visited) hsub1
      by_cases hsol1 : sol1 = []
      · rw [if_pos hsol1] at heq
        obtain ⟨hsub2, hrp2⟩ := ih v vis1 t1 sol vis2 t2
          (fun m hm => hnb m (by simp [hm])) (fun h => hend (by simp [h])) heq
        exact ⟨le_trans hsubv hsub2,
          fun h => recPath_weaken (hrp2 h) hsubv⟩
      · rw [if_neg hsol1] at heq
        cases heq
        obtain ⟨g1, g2, g3, g4⟩ := hrp1 hsol1
        refine ⟨hsubv, fun _ => ⟨?_, ?_, ?_, ?_⟩⟩
        · exact List.chain'_cons.2 ⟨hnb n (by simp), g1⟩
        · rw [getLast?_cons_ne hsol1]
          exact g2
        · refine List.nodup_cons.2 ⟨?_, g3⟩
          intro hmem
          rcases g4 n hmem with h' | h'
          · exact hend (by simp [h'.symm])
          · exact h'.2 (Finset.mem_insert_self n visited)
        · intro x hx
          rcases List.mem_cons.1 hx with h' | h'
          · exact h' ▸ Or.inr ⟨hcond.2, hcond.1⟩
          · rcases g4 x h' with h'' | h''
            · exact Or.inl h''
            · exact Or.inr ⟨h''.1, fun hc =>
                h''.2 (Finset.mem_insert_of_mem hc)⟩
    · rw [if_neg hcond] at heq
      exact ih v visited t sol vis2 t2 (fun m hm => hnb m (by simp [hm]))
        (fun h => hend (by simp [h])) heq

/-- Soundness of the recursive DFS: proved for every fuel by induction,
with the neighbor-loop lemma supplying the inner step. -/
theorem dfsRec_spec {sh : Shuffler} (hsh : IsShuffler sh) {sx sy : ℤ}
    {C : Finset Coord} {endc : Coord} :
    ∀ fuel, DfsRecSpec sh sx sy C endc fuel := by
  intro fuel
  induction fuel with
  | zero =>
    intro v visited t sol vis2 t2 heq
    simp [DFSRecursiveSolver.dfs] at heq
    obtain ⟨h1, h2, _⟩ := heq
    subst h1
    subst h2
    exact ⟨le_refl _, fun h => absurd rfl h⟩
  | succ fuel ih =>
    intro v visited t sol vis2 t2 heq
    simp only [DFSRecursiveSolver.dfs] at heq
    by_cases h0 : remove_out_of_bounds_neighbors
        (get_neighbors v 1 none none ∅) sx sy = []
    · rw [if_pos h0] at heq
      cases heq
      exact ⟨le_refl _, fun h => absurd rfl h⟩
    · rw [if_neg h0] at heq
      by_cases hend : endc ∈ remove_out_of_bounds_neighbors
          (get_neighbors v 1 none none ∅) sx sy
      · rw [if_pos hend] at heq
        cases heq
        refine ⟨le_refl _, fun _ => ⟨?_, by simp, by simp, by simp⟩⟩
        have : endc ∈ nbrsList v 1 := by
          have := (mem_remove_oob.1 hend).1
          rwa [get_neighbors_no_bounds] at this
        simp [List.chain'_cons]
        exact this
      · rw [if_neg hend] at heq
        refine dfsRec_tryNbrs_spec ih _ v visited (t + 1) sol vis2 t2
          ?_ ?_ heq
        · intro n hn
          have hn' : n ∈ remove_out_of_bounds_neighbors
              (get_neighbors v 1 none none ∅) sx sy :=
            ((hsh t _).mem_iff).1 hn
          have := (mem_remove_oob.1 hn').1
          rwa [get_neighbors_no_bounds] at this
        · intro h
          exact hend (((hsh t _).mem_iff).1 h)

/-- Soundness of DFSRecursiveSolver.solve: a non-empty result is a
duplicate-free 4-connected path from a neighbor of `start` to `end`,
omitting `start` itself; all its cells other than `end` are corridor cells
different from `start`. -/
theorem dfsRec_solve_spec {sh : Shuffler} (hsh : IsShuffler sh) {sx sy : ℤ}
    {C : Finset Coord} {start endc : Coord} {fuel : Nat}
    (hne : DFSRecursiveSolver.solve sh sx sy C start endc fuel ≠ []) :
    RecPath C endc start {start}
      (DFSRecursiveSolver.solve sh sx sy C start endc fuel) := by
  rcases hdd : DFSRecursiveSolver.dfs sh sx sy C endc fuel start {start} 0
    with ⟨sol, vis2, t2⟩
  have hsol : DFSRecursiveSolver.solve sh sx sy C start endc fuel = sol := by
    rw [DFSRecursiveSolver.solve, hdd]
  rw [hsol] at hne ⊢
  exact ((dfsRec_spec hsh fuel) start {start} 0 sol vis2 t2 hdd).2 hne

/-! ### Midpoint geometry for the generators -/

theorem mid_adj {current next : Coord} (h : next ∈ nbrsList current 2) :
    ((current.1 + next.1) / 2, (current.2 + next.2) / 2) ∈
        nbrsList current 1 ∧
      next ∈ nbrsList ((current.1 + next.1) / 2, (current.2 + next.2) / 2) 1 := by
  rcases mem_nbrsList.1 h with h1 | h1 | h1 | h1 <;>
    (subst h1; constructor <;> (simp [mem_nbrsList, Prod.ext_iff]; omega))

theorem isInterior_inGrid {sx sy : ℤ} {c : Coord}
    (h : isInterior sx sy c) : inGrid sx sy c := by
  obtain ⟨h1, h2, h3, h4⟩ := h
  exact ⟨by omega, by omega, by omega, by omega⟩

theorem mid_interior {sx sy : ℤ} {current next : Coord}
    (hg : inGrid sx sy current) (hi : isInterior sx sy next)
    (h : next ∈ nbrsList current 2) :
    isInterior sx sy ((current.1 + next.1) / 2, (current.2 + next.2) / 2) := by
  obtain ⟨g1, g2, g3, g4⟩ := hg
  obtain ⟨i1, i2, i3, i4⟩ := hi
  rcases mem_nbrsList.1 h with h1 | h1 | h1 | h1 <;>
    (rw [h1] at i1 i2 i3 i4 ⊢; exact ⟨by simp; omega, by simp; omega,
      by simp; omega, by simp; omega⟩)

/-! ### RandomDFS generator invariants -/

theorem randomDFS_aux_interior {rng : Nat → Nat} {sx sy : ℤ} :
    ∀ (fuel : Nat) (stack : List Coord) (visited corridors : Finset Coord)
      (t : Nat),
    (∀ c ∈ stack, inGrid sx sy c) →
    (∀ c ∈ corridors, isInterior sx sy c) →
    ∀ c ∈ RandomDFS.generateAux rng sx sy fuel stack visited corridors t,
      isInterior sx sy c := by
  intro fuel
  induction fuel with
  | zero =>
    intro stack visited corridors t _ hcor
    simpa [RandomDFS.generateAux] using hcor
  | succ fuel ih =>
    intro stack visited corridors t hstack hcor
    cases stack with
    | nil => simpa [RandomDFS.generateAux] using hcor
    | cons current rest =>
      simp only [RandomDFS.generateAux]
      set unvisited := (nbrsList current 2).filter
        (fun n => decide (n ∉ visited)) with hu
      set cands := if unvisited = [] then []
        else remove_out_of_bounds_neighbors unvisited sx sy with hcd
      by_cases hc : cands = []
      · rw [if_pos hc]
        exact ih rest visited corridors (t + 1)
          (fun c hcm => hstack c (by simp [hcm])) hcor
      · rw [if_neg hc]
        have hnext : pickCell cands (rng t) ∈ cands := pickCell_mem hc _
        have hunv : unvisited ≠ [] := by
          intro h'
          rw [hcd, if_pos h'] at hc
          exact hc rfl
        have hcands : cands = remove_out_of_bounds_neighbors unvisited sx sy := by
          rw [hcd, if_neg hunv]
        have hnext' : pickCell cands (rng t) ∈
            remove_out_of_bounds_neighbors unvisited sx sy := by
          rw [← hcands]
          exact hnext
        have hni : isInterior sx sy (pickCell cands (rng t)) :=
          (mem_remove_oob.1 hnext').2
        have hn2 : pickCell cands (rng t) ∈ nbrsList current 2 := by
          have h3 := (mem_remove_oob.1 hnext').1
          rw [hu] at h3
          exact (List.mem_filter.1 h3).1
        have hcurg : inGrid sx sy current := hstack current (by simp)
        refine ih _ _ _ (t + 1) ?_ ?_
        · intro c hcm
          rcases List.mem_cons.1 hcm with h' | h'
          · exact h' ▸ isInterior_inGrid hni
          · rcases List.mem_cons.1 h' with h'' | h''
            · exact h'' ▸ hcurg
            · exact hstack c (by simp [h''])
        · intro c hcm
          rcases Finset.mem_insert.1 hcm with h' | h'
          · exact h' ▸ hni
          · rcases Finset.mem_insert.1 h' with h'' | h''
            · exact h'' ▸ mid_interior hcurg hni hn2
            · exact hcor c h''

theorem randomDFS_aux_reach {rng : Nat → Nat} {sx sy : ℤ} {start : Coord} :
    ∀ (fuel : Nat) (stack : List Coord) (visited corridors : Finset Coord)
      (t : Nat),
    (∀ c ∈ stack, Reachable (insert start corridors) start c) →
    (∀ c ∈ corridors, Reachable (insert start corridors) start c) →
    ∀ c ∈ RandomDFS.generateAux rng sx sy fuel stack visited corridors t,
      Reachable
        (insert start (RandomDFS.generateAux rng sx sy fuel stack visited
          corridors t)) start c := by
  intro fuel
  induction fuel with
  | zero =>
    intro stack visited corridors t _ hcor
    simpa [RandomDFS.generateAux] using hcor
  | succ fuel ih =>
    intro stack visited corridors t hstack hcor
    cases stack with
    | nil => simpa [RandomDFS.generateAux] using hcor
    | cons current rest =>
      simp only [RandomDFS.generateAux]
      set unvisited := (nbrsList current 2).filter
        (fun n => decide (n ∉ visited)) with hu
      set cands := if unvisited = [] then []
        else remove_out_of_bounds_neighbors unvisited sx sy with hcd
      by_cases hc : cands = []
      · rw [if_pos hc]
        exact ih rest visited corridors (t + 1)
          (fun c hcm => hstack c (by simp [hcm])) hcor
      · rw [if_neg hc]
        have hnext : pickCell cands (rng t) ∈ cands := pickCell_mem hc _
        have hunv : unvisited ≠ [] := by
          intro h'
          rw [hcd, if_pos h'] at hc
          exact hc rfl
        have hcands : cands = remove_out_of_bounds_neighbors unvisited sx sy := by
          rw [hcd, if_neg hunv]
        have hnext' : pickCell cands (rng t) ∈
            remove_out_of_bounds_neighbors unvisited sx sy := by
          rw [← hcands]
          exact hnext
        have hn2 : pickCell cands (rng t) ∈ nbrsList current 2 := by
          have h3 := (mem_remove_oob.1 hnext').1
          rw [hu] at h3
          exact (List.mem_filter.1 h3).1
        set next := pickCell cands (rng t) with hnx
        set mid := ((current.1 + next.1) / 2, (current.2 + next.2) / 2)
          with hmd
        set C2 := insert next (insert mid corridors) with hC2
        have hmono : insert start corridors ⊆ insert start C2 := by
          intro x hx
          rcases Finset.mem_insert.1 hx with h' | h'
          · exact h' ▸ Finset.mem_insert_self _ _
          · exact Finset.mem_insert_of_mem
              (Finset.mem_insert_of_mem (Finset.mem_insert_of_mem h'))
        have hrmid : Reachable (insert start C2) start mid :=
          Reachable.step ((hstack current (by simp)).mono hmono)
            (mid_adj hn2).1
            (Finset.mem_insert_of_mem
              (Finset.mem_insert_of_mem (Finset.mem_insert_self _ _)))
        have hrnext : Reachable (insert start C2) start next :=
          Reachable.step hrmid (mid_adj hn2).2
            (Finset.mem_insert_of_mem (Finset.mem_insert_self _ _))
        refine ih _ _ _ (t + 1) ?_ ?_
        · intro c hcm
          rcases List.mem_cons.1 hcm with h' | h'
          · exact h' ▸ hrnext
          · rcases List.mem_cons.1 h' with h'' | h''
            · exact h'' ▸ (hstack current (by simp)).mono hmono
            · exact (hstack c (by simp [h''])).mono hmono
        · intro c hcm
          rcases Finset.mem_insert.1 hcm with h' | h'
          · exact h' ▸ hrnext
          · rcases Finset.mem_insert.1 h' with h'' | h''
            · exact h'' ▸ hrmid
            · exact (hcor c h'').mono hmono

/-- On a 3x3 grid no cell of the grid has a step-2 neighbor in the
interior (whose only cell is (1,1)), so the RandomDFS loop never carves:
it returns its corridor set unchanged. -/
theorem randomDFS_aux_33 {rng : Nat → Nat} :
    ∀ (fuel : Nat) (stack : List Coord) (visited corridors : Finset Coord)
      (t : Nat),
    (∀ c ∈ stack, inGrid 3 3 c) →
    RandomDFS.generateAux rng 3 3 fuel stack visited corridors t =
      corridors := by
  intro fuel
  induction fuel with
  | zero =>
    intro stack visited corridors t _
    simp [RandomDFS.generateAux]
  | succ fuel ih =>
    intro stack visited corridors t hstack
    cases stack with
    | nil => simp [RandomDFS.generateAux]
    | cons current rest =>
      simp only [RandomDFS.generateAux]
      set unvisited := (nbrsList current 2).filter
        (fun n => decide (n ∉ visited)) with hu
      set cands := if unvisited = [] then []
        else remove_out_of_bounds_neighbors unvisited (3 : ℤ) 3 with hcd
      have hc : cands = [] := by
        by_cases hunv : unvisited = []
        · rw [hcd, if_pos hunv]
        · rw [hcd, if_neg hunv]
          rcases hr : remove_out_of_bounds_neighbors unvisited (3 : ℤ) 3
            with _ | ⟨n, l⟩
          · rfl
          · exfalso
            have hn : n ∈ remove_out_of_bounds_neighbors unvisited (3 : ℤ) 3 := by
              rw [hr]
              simp
            obtain ⟨hn1, hn2⟩ := mem_remove_oob.1 hn
            rw [hu] at hn1
            have hn3 := (List.mem_filter.1 hn1).1
            have hcg : inGrid 3 3 current := hstack current (by simp)
            obtain ⟨g1, g2, g3, g4⟩ := hcg
            obtain ⟨i1, i2, i3, i4⟩ := hn2
            rcases mem_nbrsList.1 hn3 with h1 | h1 | h1 | h1 <;>
              (rw [h1] at i1 i2 i3 i4; simp at i1 i2 i3 i4; omega)
      rw [if_pos hc]
      exact ih rest visited corridors (t + 1)
        fun c hcm => hstack c (by simp [hcm])

/-! ### RandomPrims generator invariants -/

theorem mem_listUnion {q adds : List Coord} {x : Coord} :
    x ∈ listUnion q adds ↔ x ∈ q ∨ x ∈ adds := by
  simp only [listUnion, List.mem_append, List.mem_filter]
  constructor
  · intro h
    rcases h with h | h
    · exact Or.inl h
    · exact Or.inr h.1
  · intro h
    rcases h with h | h
    · exact Or.inl h
    · by_cases hq : x ∈ q
      · exact Or.inl hq
      · exact Or.inr ⟨h, by simpa using hq⟩

theorem prims_aux_interior {rng1 rng2 : Nat → Nat} {sx sy : ℤ}
    (hx : sx ≠ 0) (hy : sy ≠ 0) :
    ∀ (fuel : Nat) (q : List Coord) (corridors : Finset Coord) (t : Nat),
    (∀ c ∈ q, isInterior sx sy c) →
    (∀ c ∈ corridors, isInterior sx sy c) →
    ∀ c ∈ RandomPrims.generateAux rng1 rng2 sx sy fuel q corridors t,
      isInterior sx sy c := by
  intro fuel
  induction fuel with
  | zero =>
    intro q corridors t _ hcor
    simpa [RandomPrims.generateAux] using hcor
  | succ fuel ih =>
    intro q corridors t hq hcor
    cases q with
    | nil => simpa [RandomPrims.generateAux] using hcor
    | cons c0 q0 =>
      simp only [RandomPrims.generateAux]
      set fc := pickCell (c0 :: q0) (rng1 t) with hfc
      have hfci : isInterior sx sy fc :=
        hq fc (pickCell_mem (by simp) _)
      set connecting := (get_neighbors fc 2 (some sx) (some sy) ∅).filter
        (fun n => decide (n ∈ corridors)) with hcn
      have hq1 : ∀ c ∈ (c0 :: q0).erase fc, isInterior sx sy c :=
        fun c hc => hq c (List.erase_subset _ _ hc)
      by_cases hcc : connecting = []
      · rw [if_pos hcc]
        exact ih _ corridors (t + 1) hq1 hcor
      · rw [if_neg hcc]
        have hccm : pickCell connecting (rng2 t) ∈ connecting :=
          pickCell_mem hcc _
        set cc := pickCell connecting (rng2 t) with hccd
        have hccg : cc ∈ get_neighbors fc 2 (some sx) (some sy) ∅ := by
          have := List.mem_filter.1 (hcn ▸ hccm)
          exact this.1
        have hcci : isInterior sx sy cc :=
          ((get_neighbors_bounds hx hy fc 2 ∅).1 hccg).2.1
        have hcc2 : cc ∈ nbrsList fc 2 := get_neighbors_bounds_sub _ _ _ hccg
        have hmidi : isInterior sx sy
            ((fc.1 + cc.1) / 2, (fc.2 + cc.2) / 2) :=
          mid_interior (isInterior_inGrid hfci) hcci hcc2
        refine ih _ _ (t + 1) ?_ ?_
        · intro c hc
          rcases mem_listUnion.1 hc with h' | h'
          · exact hq1 c h'
          · exact ((get_neighbors_bounds hx hy fc 2 _).1 h').2.1
        · intro c hc
          rcases Finset.mem_insert.1 hc with h' | h'
          · exact h' ▸ hfci
          · rcases Finset.mem_insert.1 h' with h'' | h''
            · exact h'' ▸ hmidi
            · exact hcor c h''

theorem prims_aux_reach {rng1 rng2 : Nat → Nat} {sx sy : ℤ} {r : Coord} :
    ∀ (fuel : Nat) (q : List Coord) (corridors : Finset Coord) (t : Nat),
    r ∈ corridors →
    (∀ c ∈ corridors, Reachable corridors r c) →
    r ∈ RandomPrims.generateAux rng1 rng2 sx sy fuel q corridors t ∧
    ∀ c ∈ RandomPrims.generateAux rng1 rng2 sx sy fuel q corridors t,
      Reachable (RandomPrims.generateAux rng1 rng2 sx sy fuel q corridors t)
        r c := by
  intro fuel
  induction fuel with
  | zero =>
    intro q corridors t hr hcor
    simp only [RandomPrims.generateAux]
    exact ⟨hr, hcor⟩
  | succ fuel ih =>
    intro q corridors t hr hcor
    cases q with
    | nil =>
      simp only [RandomPrims.generateAux]
      exact ⟨hr, hcor⟩
    | cons c0 q0 =>
      simp only [RandomPrims.generateAux]
      set fc := pickCell (c0 :: q0) (rng1 t) with hfc
      set connecting := (get_neighbors fc 2 (some sx) (some sy) ∅).filter
        (fun n => decide (n ∈ corridors)) with hcn
      by_cases hcc : connecting = []
      · rw [if_pos hcc]
        exact ih _ corridors (t + 1) hr hcor
      · rw [if_neg hcc]
        have hccm : pickCell connecting (rng2 t) ∈ connecting :=
          pickCell_mem hcc _
        set cc := pickCell connecting (rng2 t) with hccd
        have hccC : cc ∈ corridors := by
          have := List.mem_filter.1 (hcn ▸ hccm)
          simpa using this.2
        have hccg : cc ∈ get_neighbors fc 2 (some sx) (some sy) ∅ :=
          (List.mem_filter.1 (hcn ▸ hccm)).1
        have hcc2 : cc ∈ nbrsList fc 2 := get_neighbors_bounds_sub _ _ _ hccg
        set mid := ((fc.1 + cc.1) / 2, (fc.2 + cc.2) / 2) with hmd
        set C2 := insert fc (insert mid corridors) with hC2
        have hmono : corridors ⊆ C2 := fun x hxm =>
          Finset.mem_insert_of_mem (Finset.mem_insert_of_mem hxm)
        have hrmid : Reachable C2 r mid :=
          Reachable.step ((hcor cc hccC).mono hmono)
            (nbrsList_comm.1 (mid_adj hcc2).1 |> fun h =>
              nbrsList_comm.2 ((mid_adj hcc2).2))
            (Finset.mem_insert_of_mem (Finset.mem_insert_self _ _))
        have hrfc : Reachable C2 r fc :=
          Reachable.step hrmid (nbrsList_comm.1 (mid_adj hcc2).1)
            (Finset.mem_insert_self _ _)
        refine ih _ _ (t + 1) (hmono hr) ?_
        intro c hc
        rcases Finset.mem_insert.1 hc with h' | h'
        · exact h' ▸ hrfc
        · rcases Finset.mem_insert.1 h' with h'' | h''
          · exact h'' ▸ hrmid
          · exact (hcor c h'').mono hmono

/-! ### Bridges from solver outputs to corridor walks -/

/-- A non-empty DFSSolver path extended by `end` is a corridor walk from
`start` to `end` (needs `start` and `end` to be corridor cells). -/
theorem dfs_solve_walk {sh : Shuffler} (hsh : IsShuffler sh) {sx sy : ℤ}
    {C : Finset Coord} {start endc : Coord} {fuel : Nat}
    (hs : start ∈ C) (he : endc ∈ C)
    (hne : DFSSolver.solve sh sx sy C start endc fuel ≠ []) :
    IsCorridorWalk C start endc
      (DFSSolver.solve sh sx sy C start endc fuel ++ [endc]) := by
  obtain ⟨h1, h2, h3, h4, cur, h5, h6, _⟩ := dfs_solve_spec hsh hne
  have hwalk : IsCorridorWalk C start cur
      (DFSSolver.solve sh sx sy C start endc fuel) := by
    refine ⟨h1, h5, h2, ?_⟩
    intro x hx
    rcases h4 x hx with h' | h'
    · exact h' ▸ hs
    · exact h'
  exact hwalk.snoc h6 he

/-- A non-empty DFSRecursiveSolver path prefixed by `start` is a corridor
walk from `start` to `end`. -/
theorem dfsRec_solve_walk {sh : Shuffler} (hsh : IsShuffler sh) {sx sy : ℤ}
    {C : Finset Coord} {start endc : Coord} {fuel : Nat}
    (hs : start ∈ C) (he : endc ∈ C)
    (hne : DFSRecursiveSolver.solve sh sx sy C start endc fuel ≠ []) :
    IsCorridorWalk C start endc
      (start :: DFSRecursiveSolver.solve sh sx sy C start endc fuel) := by
  obtain ⟨h1, h2, h3, h4⟩ := dfsRec_solve_spec hsh hne
  refine ⟨by simp, ?_, h1, ?_⟩
  · rw [getLast?_cons_ne hne]
    exact h2
  · intro x hx
    rcases List.mem_cons.1 hx with h' | h'
    · exact h' ▸ hs
    · rcases h4 x h' with h'' | h''
      · exact h'' ▸ he
      · exact h''.1

theorem backtrace_self (p : List (Coord × Coord)) (start : Coord)
    (fuel : Nat) : backtrace p start fuel start = [start] := by
  cases fuel <;> simp [backtrace]

/-! ### Claims -/

/-- Claim C7, counterexample: `get_neighbors` called without bounds does
NOT remove the cells of the exclusion set, contrary to the claim — the
excluded cell (5,4) is still among the returned neighbors of (5,5). -/
theorem C7_counterexample :
    ((5 : ℤ), (4 : ℤ)) ∈ get_neighbors (5, 5) 1 none none {(5, 4)} := by
  decide

/-- Claim C7 as amended: without bounds, `get_neighbors c step` returns
exactly the 4 axis-aligned cells at step distance `step` (North (x, y-s),
East (x+s, y), South (x, y+s), West (x-s, y); no diagonals) REGARDLESS of
the exclusion set, which is ignored on this branch; the exclusion set (and
the interior-bounds filter) is applied only when both bounds are supplied
and nonzero. -/
theorem C7_amended (c : Coord) (st : ℤ) (E : Finset Coord) :
    (∀ n : Coord, n ∈ get_neighbors c st none none E ↔
      (n = (c.1, c.2 - st) ∨ n = (c.1 + st, c.2) ∨ n = (c.1, c.2 + st) ∨
        n = (c.1 - st, c.2))) ∧
    ∀ sx sy : ℤ, sx ≠ 0 → sy ≠ 0 → ∀ n : Coord,
      n ∈ get_neighbors c st (some sx) (some sy) E ↔
        ((n = (c.1, c.2 - st) ∨ n = (c.1 + st, c.2) ∨ n = (c.1, c.2 + st) ∨
          n = (c.1 - st, c.2)) ∧ isInterior sx sy n ∧ n ∉ E) := by
  constructor
  · intro n
    rw [get_neighbors_no_bounds]
    exact mem_nbrsList
  · intro sx sy hx hy n
    rw [get_neighbors_bounds hx hy, mem_nbrsList]

/-- Witness for C7: instantiating the amended claim at a concrete cell,
step, bounds and exclusion set. -/
theorem C7_witness :
    ((4 : ℤ), (5 : ℤ)) ∈ get_neighbors (5, 5) 1 (some 8) (some 8)
      (∅ : Finset Coord) :=
  ((C7_amended (5, 5) 1 ∅).2 8 8 (by decide) (by decide) (4, 5)).2
    ⟨by decide, by decide, by decide⟩

/-- Claim C8: the claim says the start/end rejection-sampling loops of
Maze.generate have a bounded-attempt fallback or a reachability precheck
and terminate even when no corridor cell satisfies the buffer constraint.
The source has neither: with corridors = [(5,1)] and the default
start_cell_buffer 3, no corridor cell has x <= 3, and the loop redraws
forever — for every attempt bound and every oracle, the search has not
terminated.  This theorem evaluates the code at that failing input. -/
theorem C8_nontermination :
    ∀ (rng : Nat → Nat) (fuel : Nat),
      Maze.pickStart [(5, 1)] 3 rng fuel = none := by
  have h : ∀ (rng : Nat → Nat) (fuel t : Nat),
      Maze.pickCellLoop [(5, 1)] (fun c => decide (c.1 ≤ 3)) rng fuel t =
        none := by
    intro rng fuel
    induction fuel with
    | zero => intro t; rfl
    | succ fuel ih =>
      intro t
      have hp : pickCell [((5 : ℤ), (1 : ℤ))] (rng t) = (5, 1) := by
        simp [pickCell, Nat.mod_one]
      simp only [Maze.pickCellLoop, hp]
      norm_num
      exact ih (t + 1)
  intro rng fuel
  exact h rng fuel 0

/-- Claim C9, counterexample: on the 4x4 grid (within the claimed range
size_x, size_y <= 4) the outcome where the random start cell is the border
cell (0,1) and the first choice picks (2,1) carves the midpoint (1,1) and
the cell (2,1): the corridor set is NOT empty.  The claim's premise fails
because the start cell is drawn from the full grid, so a border start can
be two steps away from an interior cell. -/
theorem C9_counterexample :
    RandomDFS.generate (fun n => if n = 1 then 1 else 0) 4 4 20 =
      {(1, 1), (2, 1)} ∧
    RandomDFS.generate (fun n => if n = 1 then 1 else 0) 4 4 20 ≠ ∅ := by
  constructor
  · decide
  · decide

/-- Claim C9 as amended: on the minimum legal 3x3 grid the corridor set
returned by RandomDFS.generate is empty for every outcome of the random
choices (no cell of the 3x3 grid has a step-2 neighbor in its interior,
whose only cell is (1,1)). -/
theorem C9_amended (rng : Nat → Nat) (fuel : Nat) :
    RandomDFS.generate rng 3 3 fuel = ∅ := by
  rw [RandomDFS.generate]
  refine randomDFS_aux_33 fuel _ _ _ _ ?_
  intro c hc
  simp at hc
  subst hc
  refine ⟨?_, ?_, ?_, ?_⟩ <;>
    simp [RandomDFS.startCoord] <;>
    first
      | exact Int.emod_nonneg _ (by norm_num)
      | exact Int.emod_lt_of_pos _ (by norm_num)

/-- Claim C10: when start = end, BFSSolver.solve pops start, immediately
matches it against end, and returns the singleton path containing only
that cell — even when it is not a corridor cell (the corridor-membership
test is in the elif branch that is never reached).  The Python method
returns the set of the path cells. -/
theorem C10_bfs_start_eq_end (C : Finset Coord) (c : Coord) :
    BFSSolver.solve C c c = some [c] := by
  rw [BFSSolver.solve]
  obtain ⟨k, hk⟩ : ∃ k, 2 * C.card + 2 = k + 1 := ⟨2 * C.card + 1, rfl⟩
  rw [hk]
  simp [BFSSolver.solveAux, backtrace_self]

/-- Claim C1, counterexample: on the straight corridor (1,1)-(2,1)-(3,1)
with start (1,1) and end (3,1) (both corridor cells), DFSSolver.solve
returns the path [(1,1),(2,1)] whose last cell is NOT `end`: the
reconstruction runs only up to the cell that saw `end` among its
neighbors, so `end` is missing from the returned path. -/
theorem C1_counterexample :
    DFSSolver.solve idShuffler 5 3 {(1, 1), (2, 1), (3, 1)} (1, 1) (3, 1) 20 =
      [(1, 1), (2, 1)] ∧
    ((3 : ℤ), (1 : ℤ)) ∉
      DFSSolver.solve idShuffler 5 3 {(1, 1), (2, 1), (3, 1)} (1, 1) (3, 1) 20 ∧
    ((1 : ℤ), (1 : ℤ)) ∈ ({(1, 1), (2, 1), (3, 1)} : Finset Coord) ∧
    ((3 : ℤ), (1 : ℤ)) ∈ ({(1, 1), (2, 1), (3, 1)} : Finset Coord) := by
  refine ⟨by decide, by decide, by decide, by decide⟩

/-- Claim C1 as amended: for start/end drawn from the corridor set, the
reconstructed BFS path is an ordered sequence whose consecutive cells are
4-connected and distinct, starting at `start`, ending at `end`, with every
cell in the corridor set (the Python method returns its cell set).  The
DFS solvers return correspondingly well-formed ordered paths with one
endpoint missing each: DFSSolver's path starts at `start` but stops one
cell short of `end` (appending `end` yields a corridor walk), and
DFSRecursiveSolver's path ends at `end` but omits `start` (prepending
`start` yields a corridor walk); both are duplicate-free and consist of
corridor cells.  (The sizes must be nonzero for DFSSolver, whose
bounds-filtered neighbor query would otherwise ignore its visited set.) -/
theorem C1_amended (C : Finset Coord) (start endc : Coord) (sh : Shuffler)
    (sx sy : ℤ) (hs : start ∈ C) (he : endc ∈ C) (hsh : IsShuffler sh)
    (hx : 0 < sx) (hy : 0 < sy) :
    (∀ bl, BFSSolver.solve C start endc = some bl →
      bl.head? = some start ∧ bl.getLast? = some endc ∧
      List.Chain' adjacent bl ∧ bl.Nodup ∧ ∀ x ∈ bl, x ∈ C) ∧
    (∀ fuel, DFSSolver.solve sh sx sy C start endc fuel ≠ [] →
      IsCorridorWalk C start endc
        (DFSSolver.solve sh sx sy C start endc fuel ++ [endc]) ∧
      (DFSSolver.solve sh sx sy C start endc fuel ++ [endc]).Nodup) ∧
    (∀ fuel, DFSRecursiveSolver.solve sh sx sy C start endc fuel ≠ [] →
      IsCorridorWalk C start endc
        (start :: DFSRecursiveSolver.solve sh sx sy C start endc fuel) ∧
      (DFSRecursiveSolver.solve sh sx sy C start endc fuel).Nodup) := by
  refine ⟨?_, ?_, ?_⟩
  · intro bl hbl
    obtain ⟨h1, h2, h3, h4, h5, _⟩ := bfs_solve_some hbl
    refine ⟨h1, h2, h3, h4, ?_⟩
    intro x hxm
    rcases h5 x hxm with h' | h'
    · exact h' ▸ hs
    · exact h'
  · intro fuel hne
    refine ⟨dfs_solve_walk hsh hs he hne, ?_⟩
    obtain ⟨h1, h2, h3, h4, cur, h5, h6, h7⟩ := dfs_solve_spec hsh hne
    rw [List.nodup_append]
    refine ⟨h3, by simp, ?_⟩
    intro x hxm
    simp only [List.mem_singleton]
    intro h'
    exact (h7 (by omega) (by omega)) (h' ▸ hxm)
  · intro fuel hne
    exact ⟨dfsRec_solve_walk hsh hs he hne,
      (dfsRec_solve_spec hsh hne).2.2.1⟩

/-- Witness for C1: the amended claim instantiated on the straight
corridor (1,1)-(2,1)-(3,1) with start (1,1), end (3,1), the identity
shuffle oracle and grid 5x3. -/
theorem C1_witness :
    (([(1, 1), (2, 1), (3, 1)] : List Coord)).Nodup ∧
    (∀ x ∈ ([(1, 1), (2, 1), (3, 1)] : List Coord),
      x ∈ ({(1, 1), (2, 1), (3, 1)} : Finset Coord)) := by
  have h := (C1_amended {(1, 1), (2, 1), (3, 1)} (1, 1) (3, 1) idShuffler 5 3
    (by decide) (by decide) idShuffler_is (by decide) (by decide)).1
    [(1, 1), (2, 1), (3, 1)] (by decide)
  exact ⟨h.2.2.2.1, h.2.2.2.2⟩

/-- Claim C2, counterexample: corridors {(1,1),(2,1)}, start (1,1), end
(2,1) (adjacent corridor cells).  BFSSolver returns the 2-cell path
[(1,1),(2,1)] with edge count 1, but DFSSolver returns the 1-cell path
[(1,1)] (its reconstruction omits `end`) with edge count 0 — so the BFS
path length is NOT less than or equal to the DFS path length. -/
theorem C2_counterexample :
    BFSSolver.solve {(1, 1), (2, 1)} (1, 1) (2, 1) = some [(1, 1), (2, 1)] ∧
    DFSSolver.solve idShuffler 5 3 {(1, 1), (2, 1)} (1, 1) (2, 1) 20 =
      [(1, 1)] ∧
    ¬ ((Option.getD (BFSSolver.solve {(1, 1), (2, 1)} (1, 1) (2, 1))
          []).length - 1 ≤
        (DFSSolver.solve idShuffler 5 3 {(1, 1), (2, 1)} (1, 1) (2, 1)
          20).length - 1) := by
  refine ⟨by decide, by decide, by decide⟩

/-- Claim C2 as amended: for start/end drawn from the corridor set, any
path returned by BFSSolver is shortest among corridor walks, and in
particular its cell count is at most the cell count of any non-empty
DFSSolver or DFSRecursiveSolver result PLUS ONE — the missing cell being
the endpoint each DFS solver omits (`end` for DFSSolver, `start` for
DFSRecursiveSolver); equivalently, the BFS edge count never exceeds the
edge count of the full start-to-end walk the DFS result witnesses. -/
theorem C2_amended (C : Finset Coord) (start endc : Coord) (sh : Shuffler)
    (sx sy : ℤ) (bl : List Coord) (hs : start ∈ C) (he : endc ∈ C)
    (hsh : IsShuffler sh) (hb : BFSSolver.solve C start endc = some bl) :
    (∀ fuel, DFSSolver.solve sh sx sy C start endc fuel ≠ [] →
      bl.length ≤ (DFSSolver.solve sh sx sy C start endc fuel).length + 1) ∧
    (∀ fuel, DFSRecursiveSolver.solve sh sx sy C start endc fuel ≠ [] →
      bl.length ≤
        (DFSRecursiveSolver.solve sh sx sy C start endc fuel).length + 1) := by
  have hmin := (bfs_solve_some hb).2.2.2.2.2
  constructor
  · intro fuel hne
    have hw := dfs_solve_walk hsh hs he hne
    have := hmin _ hw
    simpa using this
  · intro fuel hne
    have hw := dfsRec_solve_walk hsh hs he hne
    have := hmin _ hw
    simpa using this

/-- Witness for C2: on the straight corridor (1,1)-(2,1)-(3,1) the BFS
path has 3 cells and the DFS path has 2, satisfying the amended bound. -/
theorem C2_witness :
    (([(1, 1), (2, 1), (3, 1)] : List Coord)).length ≤
      (DFSSolver.solve idShuffler 5 3 {(1, 1), (2, 1), (3, 1)} (1, 1) (3, 1)
        20).length + 1 :=
  (C2_amended {(1, 1), (2, 1), (3, 1)} (1, 1) (3, 1) idShuffler 5 3
    [(1, 1), (2, 1), (3, 1)] (by decide) (by decide) idShuffler_is
    (by decide)).1 20 (by decide)

/-- Shared helper: when BFS reports no path between corridor cells, both
DFS solvers return the empty result, since a non-empty DFS result would
witness a corridor walk that BFS completeness excludes. -/
theorem dfs_empty_of_bfs_none {C : Finset Coord} {start endc : Coord}
    {sh : Shuffler} {sx sy : ℤ} (hs : start ∈ C) (he : endc ∈ C)
    (hsh : IsShuffler sh) (hb : BFSSolver.solve C start endc = none) :
    ∀ fuel, DFSSolver.solve sh sx sy C start endc fuel = [] ∧
      DFSRecursiveSolver.solve sh sx sy C start endc fuel = [] := by
  intro fuel
  constructor
  · by_contra hne
    exact bfs_solve_none hb _ (dfs_solve_walk hsh hs he hne)
  · by_contra hne
    exact bfs_solve_none hb _ (dfsRec_solve_walk hsh hs he hne)

/-- Claim C3: for start/end cells that are members of the corridor set, if
BFSSolver.solve reports no path (None), then DFSSolver.solve and
DFSRecursiveSolver.solve report no path as well (their empty-set signal),
for every outcome of the shuffles and every recursion bound: a non-empty
DFS result would witness a corridor walk from start to end, which BFS
completeness excludes. -/
theorem C3_no_path_agreement (C : Finset Coord) (start endc : Coord)
    (sh : Shuffler) (sx sy : ℤ) (hs : start ∈ C) (he : endc ∈ C)
    (hsh : IsShuffler sh) (hb : BFSSolver.solve C start endc = none) :
    ∀ fuel, DFSSolver.solve sh sx sy C start endc fuel = [] ∧
      DFSRecursiveSolver.solve sh sx sy C start endc fuel = [] :=
  dfs_empty_of_bfs_none hs he hsh hb

/-- Witness for C3: corridors {(1,1),(3,1)} with the wall cell (2,1)
between start (1,1) and end (3,1): BFS reports no path, and both DFS
solvers return the empty result. -/
theorem C3_witness :
    DFSSolver.solve idShuffler 5 3 {(1, 1), (3, 1)} (1, 1) (3, 1) 20 = [] ∧
    DFSRecursiveSolver.solve idShuffler 5 3 {(1, 1), (3, 1)} (1, 1) (3, 1)
      20 = [] :=
  C3_no_path_agreement {(1, 1), (3, 1)} (1, 1) (3, 1) idShuffler 5 3
    (by decide) (by decide) idShuffler_is (by decide) 20

/-- The oracle of the C4 counterexample run: start (3,1) on the 7x3 grid,
then carve east to (5,1), backtrack, carve west to (1,1). -/
def rngC4 : Nat → Nat := fun n => if n = 0 then 3 else if n = 1 then 1 else 0

/-- Claim C4, counterexample: RandomDFS on the 7x3 grid with start (3,1)
carves {(1,1),(2,1),(4,1),(5,1)} — two components separated by the start
cell (3,1), which RandomDFS never adds to the corridor set.  The returned
corridor set is NOT connected under step-1 adjacency: (4,1) is not
reachable from (2,1) inside it. -/
theorem C4_counterexample :
    RandomDFS.generate rngC4 7 3 20 = {(1, 1), (2, 1), (4, 1), (5, 1)} ∧
    ¬ ConnectedSet (RandomDFS.generate rngC4 7 3 20) := by
  have hgen : RandomDFS.generate rngC4 7 3 20 =
      {(1, 1), (2, 1), (4, 1), (5, 1)} := by decide
  refine ⟨hgen, ?_⟩
  intro hcon
  have h21 : ((2 : ℤ), (1 : ℤ)) ∈ RandomDFS.generate rngC4 7 3 20 := by
    rw [hgen]; decide
  have h41 : ((4 : ℤ), (1 : ℤ)) ∈ RandomDFS.generate rngC4 7 3 20 := by
    rw [hgen]; decide
  have hreach := hcon (2, 1) h21 (4, 1) h41
  rw [hgen] at hreach
  have key : ∀ c : Coord,
      Reachable {(1, 1), (2, 1), (4, 1), (5, 1)} (2, 1) c →
      c = (1, 1) ∨ c = (2, 1) := by
    intro c h
    induction h with
    | refl => exact Or.inr rfl
    | step hb hadj hc ih =>
      rename_i b' c'
      have hc' : c' = ((1 : ℤ), (1 : ℤ)) ∨ c' = (2, 1) ∨ c' = (4, 1) ∨
          c' = (5, 1) := by
        simpa [Finset.mem_insert] using hc
      rcases ih with rfl | rfl <;> rcases hc' with rfl | rfl | rfl | rfl <;>
        first
          | exact Or.inl rfl
          | exact Or.inr rfl
          | exact absurd hadj (by decide)
  rcases key (4, 1) hreach with h' | h' <;> exact absurd h' (by decide)

/-- Claim C4 as amended: for every grid size and every outcome of the
random choices, the corridor set produced by RandomPrims.generate is
connected under step-1 adjacency restricted to corridor cells, and the
corridor set produced by RandomDFS.generate becomes connected only after
adding the start cell (which the algorithm never carves): the carved cells
form a tree through the start, so the set with the start added is
connected, while the returned set itself can be disconnected (see the
counterexample). -/
theorem C4_amended (rng rng1 rng2 : Nat → Nat) (sx sy : ℤ) (fuel : Nat) :
    ConnectedSet (RandomPrims.generate rng1 rng2 sx sy fuel) ∧
    ConnectedSet (insert (RandomDFS.startCoord rng sx sy)
      (RandomDFS.generate rng sx sy fuel)) := by
  constructor
  · rw [RandomPrims.generate]
    have hinit : ∀ c ∈ ({RandomPrims.startCoord rng1 rng2 sx sy} :
        Finset Coord),
        Reachable {RandomPrims.startCoord rng1 rng2 sx sy}
          (RandomPrims.startCoord rng1 rng2 sx sy) c := by
      intro c hc
      simp at hc
      subst hc
      exact Reachable.refl
    obtain ⟨hr, hall⟩ := @prims_aux_reach rng1 rng2 sx sy
      (RandomPrims.startCoord rng1 rng2 sx sy) fuel
      (get_neighbors (RandomPrims.startCoord rng1 rng2 sx sy) 2
        (some sx) (some sy) ∅)
      {RandomPrims.startCoord rng1 rng2 sx sy} 1 (by simp) hinit
    exact connectedSet_of_root hr hall
  · rw [RandomDFS.generate]
    set start := RandomDFS.startCoord rng sx sy with hst
    have hstack : ∀ c ∈ [start],
        Reachable (insert start (∅ : Finset Coord)) start c := by
      intro c hc
      simp at hc
      subst hc
      exact Reachable.refl
    have hcor : ∀ c ∈ (∅ : Finset Coord),
        Reachable (insert start (∅ : Finset Coord)) start c := by
      intro c hc
      simp at hc
    have hall := @randomDFS_aux_reach rng sx sy start fuel
      [start] {start} ∅ 2 hstack hcor
    refine connectedSet_of_root (Finset.mem_insert_self _ _) ?_
    intro c hc
    rcases Finset.mem_insert.1 hc with h' | h'
    · exact h' ▸ Reachable.refl
    · exact hall c h' 

/-- Claim C5: for sizes at least 3 and every outcome of the random
choices, every corridor cell produced by RandomDFS.generate and by
RandomPrims.generate is strictly inside the border: 0 < x < size_x - 1 and
0 < y < size_y - 1 (hence in particular inside [0,size_x) x [0,size_y)),
even when RandomDFS's random start cell lies on the border — the start
cell itself is never carved, carved cells are bounds-filtered, and carved
midpoints sit between a grid cell and an interior cell. -/
theorem C5_interior (rng rng1 rng2 : Nat → Nat) (sx sy : ℤ) (fuel : Nat)
    (hx : 3 ≤ sx) (hy : 3 ≤ sy) :
    (∀ c ∈ RandomDFS.generate rng sx sy fuel, isInterior sx sy c) ∧
    (∀ c ∈ RandomPrims.generate rng1 rng2 sx sy fuel, isInterior sx sy c) := by
  constructor
  · rw [RandomDFS.generate]
    refine randomDFS_aux_interior fuel _ _ _ _ ?_ (by simp)
    intro c hc
    simp at hc
    subst hc
    refine ⟨?_, ?_, ?_, ?_⟩ <;> simp [RandomDFS.startCoord] <;>
      first
        | exact Int.emod_nonneg _ (by omega)
        | exact Int.emod_lt_of_pos _ (by omega)
  · rw [RandomPrims.generate]
    have hxi : sx ≠ 0 := by omega
    have hyi : sy ≠ 0 := by omega
    have hstart : isInterior sx sy (RandomPrims.startCoord rng1 rng2 sx sy) := by
      have h1 : (0 : ℤ) ≤ (rng1 0 : ℤ) % (sx - 2) :=
        Int.emod_nonneg _ (by omega)
      have h2 : (rng1 0 : ℤ) % (sx - 2) < sx - 2 :=
        Int.emod_lt_of_pos _ (by omega)
      have h3 : (0 : ℤ) ≤ (rng2 0 : ℤ) % (sy - 2) :=
        Int.emod_nonneg _ (by omega)
      have h4 : (rng2 0 : ℤ) % (sy - 2) < sy - 2 :=
        Int.emod_lt_of_pos _ (by omega)
      refine ⟨?_, ?_, ?_, ?_⟩ <;> simp [RandomPrims.startCoord] <;> omega
    refine prims_aux_interior hxi hyi fuel _ _ 1 ?_ ?_
    · intro c hc
      exact ((get_neighbors_bounds hxi hyi _ 2 ∅).1 hc).2.1
    · intro c hc
      simp at hc
      subst hc
      exact hstart

/-- Witness for C5: concrete 5x5 runs of both generators contain the
claimed interior cells. -/
theorem C5_witness :
    isInterior 5 5 ((3 : ℤ), (1 : ℤ)) ∧ isInterior 5 5 ((2 : ℤ), (1 : ℤ)) :=
  ⟨(C5_interior (fun _ => 1) (fun _ => 0) (fun _ => 0) 5 5 20 (by decide)
      (by decide)).1 (3, 1) (by decide),
    (C5_interior (fun _ => 1) (fun _ => 0) (fun _ => 0) 5 5 20 (by decide)
      (by decide)).2 (2, 1) (by decide)⟩

/-- Claim C6, counterexample: corridors {(1,1),(3,1)} with start (1,1)
and end (3,1) have no corridor path, yet the three solvers do NOT return
one and the same no-path value: BFSSolver returns the absent value (None),
while DFSSolver and DFSRecursiveSolver return the empty set — which is
precisely the representation of a path of zero cells, so their signal is
also not distinguishable from an empty path. -/
theorem C6_counterexample :
    BFSSolver.solve {(1, 1), (3, 1)} (1, 1) (3, 1) = none ∧
    DFSSolver.solve idShuffler 5 3 {(1, 1), (3, 1)} (1, 1) (3, 1) 20 = [] ∧
    DFSRecursiveSolver.solve idShuffler 5 3 {(1, 1), (3, 1)} (1, 1) (3, 1)
      20 = [] ∧
    ((1 : ℤ), (1 : ℤ)) ∈ ({(1, 1), (3, 1)} : Finset Coord) ∧
    ((3 : ℤ), (1 : ℤ)) ∈ ({(1, 1), (3, 1)} : Finset Coord) := by
  refine ⟨by decide, by decide, by decide, by decide, by decide⟩

/-- Claim C6 as amended: the solvers report "definitively unreachable"
deterministically but with two different values: when start and end are
corridor cells with no corridor walk between them, BFSSolver.solve returns
the absent value `none` (Python None) while DFSSolver.solve and
DFSRecursiveSolver.solve return the empty path (Python `set()`) for every
shuffle outcome and bound — so the two DFS solvers agree with each other,
BFS uses a different signal, and the DFS signal coincides with a
zero-length path rather than being distinguishable from it. -/
theorem C6_amended (C : Finset Coord) (start endc : Coord)
    (hs : start ∈ C) (he : endc ∈ C)
    (hnw : ∀ w, ¬ IsCorridorWalk C start endc w) :
    BFSSolver.solve C start endc = none ∧
    ∀ sh : Shuffler, IsShuffler sh → ∀ (sx sy : ℤ) (fuel : Nat),
      DFSSolver.solve sh sx sy C start endc fuel = [] ∧
      DFSRecursiveSolver.solve sh sx sy C start endc fuel = [] := by
  have hbfs : BFSSolver.solve C start endc = none := by
    rcases hb : BFSSolver.solve C start endc with _ | bl
    · rfl
    · exfalso
      obtain ⟨h1, h2, h3, _, h5, _⟩ := bfs_solve_some hb
      refine hnw bl ⟨h1, h2, h3, ?_⟩
      intro x hx
      rcases h5 x hx with h' | h'
      · exact h' ▸ hs
      · exact h'
  refine ⟨hbfs, ?_⟩
  intro sh hsh sx sy fuel
  exact dfs_empty_of_bfs_none hs he hsh hbfs fuel

/-- Witness for C6: the amended claim instantiated on the two-cell
no-path configuration, with the absence of a corridor walk discharged by
hand. -/
theorem C6_witness :
    BFSSolver.solve {(1, 1), (3, 1)} (1, 1) (3, 1) = none ∧
    DFSSolver.solve idShuffler 4 4 {(1, 1), (3, 1)} (1, 1) (3, 1) 30 = [] ∧
    DFSRecursiveSolver.solve idShuffler 4 4 {(1, 1), (3, 1)} (1, 1) (3, 1)
      30 = [] := by
  have hnw : ∀ w, ¬ IsCorridorWalk {(1, 1), (3, 1)} (1, 1) (3, 1) w := by
    intro w hw
    obtain ⟨h1, h2, h3, h4⟩ := hw
    cases w with
    | nil => exact Option.noConfusion h1
    | cons x t =>
      simp at h1
      subst h1
      cases t with
      | nil =>
        simp at h2
        exact absurd h2 (by decide)
      | cons y t' =>
        have hy : y ∈ ({(1, 1), (3, 1)} : Finset Coord) := h4 y (by simp)
        have hadj : adjacent (1, 1) y := (List.chain'_cons.1 h3).1
        simp [Finset.mem_insert] at hy
        rcases hy with rfl | rfl
        · exact absurd hadj (by decide)
        · exact absurd hadj (by decide)
  have h := C6_amended {(1, 1), (3, 1)} (1, 1) (3, 1) (by decide) (by decide)
    hnw
  exact ⟨h.1, (h.2 idShuffler idShuffler_is 4 4 30).1,
    (h.2 idShuffler idShuffler_is 4 4 30).2⟩
